import Mathlib

/-!
# ununity: extraction of a .unitypackage archive

A shallow embedding of `src/ununity.go` (functions `unpack` and `move`) together
with a model of the Go library calls it makes (`path`, `strings`, `io`, `os`).

Modelling conventions
* A Go string is a list of bytes, each written as the character with that code
  (below 256); the length of a list is the length of the string in bytes, and
  `strings.TrimSpace` decodes UTF-8 as the Go library does.
* The filesystem is a finite-map-like function from lexical paths to nodes,
  keyed by cleaned spellings. There are no symbolic links and a single device.
  An `os` call first resolves its path as the kernel does: the empty path, a
  name with a NUL byte, an element over 255 bytes, a path over 4095 bytes and a
  `..` below a missing directory are errors (Linux limits). Every directory
  that exists can be written to.
* The archive is the list of entries that `tar.Reader.Next` delivers; each
  entry carries the bytes its reader can deliver.
-/

namespace Ununity

/-! ## Strings and the `path` package -/

abbrev Str := List Char

/-- Pieces of a string between slashes, as `strings.Split(s, "/")` returns them. -/
def splitSlash : Str → List Str
  | [] => [[]]
  | c :: cs =>
    if c = '/' then [] :: splitSlash cs
    else match splitSlash cs with
      | [] => [[c]]
      | x :: xs => (c :: x) :: xs

/-- Concatenation of path elements with a slash between neighbours. -/
def joinSlash : List Str → Str
  | [] => []
  | [x] => x
  | x :: y :: rest => x ++ '/' :: joinSlash (y :: rest)

def dotdot : Str := ['.', '.']

/-- Whether a path starts with a slash (`rooted` in `path.Clean`). -/
def isRooted (path : Str) : Bool := path.head? = some '/'

/-- One round of the loop of `path.Clean`, on a whole path element. `rev` is the
output written so far, last element first. Empty and `.` elements are dropped,
`..` removes the last written element when there is one that is not itself a
leading `..`, and is kept only in a path that is not rooted. -/
def cleanStep (rooted : Bool) (rev : List Str) (c : Str) : List Str :=
  if c = [] ∨ c = ['.'] then rev
  else if c = dotdot then
    match rev with
    | [] => if rooted then [] else [dotdot]
    | top :: rest => if top = dotdot then (if rooted then rev else dotdot :: rev) else rest
  else c :: rev

/-- Elements of the cleaned path, last element first. -/
def cleanStack (path : Str) : List Str :=
  (splitSlash path).foldl (cleanStep (isRooted path)) []

/-- Elements of the cleaned path in reading order. -/
def comps (path : Str) : List Str := (cleanStack path).reverse

/-- Spelling of a cleaned path from its elements (in reading order). -/
def render (rooted : Bool) (elems : List Str) : Str :=
  if rooted then '/' :: joinSlash elems
  else if elems = [] then ['.'] else joinSlash elems

/-- Go `path.Clean`. -/
def Clean (path : Str) : Str :=
  if path = [] then ['.'] else render (isRooted path) (comps path)

/-- Text after the last slash (the whole string when there is none). -/
def lastElem (path : Str) : Str :=
  (path.reverse.takeWhile (fun c => c ≠ '/')).reverse

/-- Go `path.Split`: the text up to and including the last slash, and the rest. -/
def Split (path : Str) : Str × Str :=
  ((path.reverse.dropWhile (fun c => c ≠ '/')).reverse, lastElem path)

/-- Go `path.Dir`. -/
def Dir (path : Str) : Str := Clean (Split path).1

/-- Go `path.Base`. -/
def Base (path : Str) : Str :=
  if path = [] then ['.']
  else
    let r := lastElem (path.reverse.dropWhile (fun c => c = '/')).reverse
    if r = [] then ['/'] else r

/-- Backward scan of `path.Ext`: `acc` holds the characters already passed. -/
def extScan : Str → Str → Str
  | [], _ => []
  | c :: cs, acc =>
    if c = '/' then [] else if c = '.' then '.' :: acc else extScan cs (c :: acc)

/-- Go `path.Ext`. -/
def Ext (path : Str) : Str := extScan path.reverse []

/-- Go `path.Join` of two elements. -/
def Join (a b : Str) : Str :=
  if a = [] ∧ b = [] then []
  else if a = [] then Clean b
  else Clean (a ++ '/' :: b)

/-! ## The `strings` package -/

/-- Go `strings.HasSuffix`. -/
def HasSuffix (s suffix : Str) : Bool :=
  decide (suffix.length ≤ s.length) && (s.drop (s.length - suffix.length) == suffix)

/-- Go `strings.TrimSuffix`. -/
def TrimSuffix (s suffix : Str) : Str :=
  if HasSuffix s suffix then s.take (s.length - suffix.length) else s

/-- The six white-space bytes below 0x80 of Go `unicode.IsSpace`: tab, line feed,
vertical tab, form feed, carriage return and space. -/
def asciiSpace (c : Char) : Bool :=
  let n := c.toNat
  (9 ≤ n && n ≤ 13) || n = 32

/-- The two-byte UTF-8 encodings of white-space runes of `unicode.IsSpace`:
U+0085 (C2 85) and U+00A0 (C2 A0). -/
def spaceSeq2 (a b : Char) : Bool :=
  a.toNat = 0xC2 && (b.toNat = 0x85 || b.toNat = 0xA0)

/-- The three-byte UTF-8 encodings of white-space runes of `unicode.IsSpace`:
U+1680 (E1 9A 80), U+2000 to U+200A (E2 80 80 to E2 80 8A), U+2028, U+2029 and
U+202F (E2 80 A8, E2 80 A9, E2 80 AF), U+205F (E2 81 9F), U+3000 (E3 80 80). -/
def spaceSeq3 (a b c : Char) : Bool :=
  (a.toNat = 0xE1 && b.toNat = 0x9A && c.toNat = 0x80) ||
  (a.toNat = 0xE2 && b.toNat = 0x80 &&
    ((0x80 ≤ c.toNat && c.toNat ≤ 0x8A) || c.toNat = 0xA8 || c.toNat = 0xA9 || c.toNat = 0xAF)) ||
  (a.toNat = 0xE2 && b.toNat = 0x81 && c.toNat = 0x9F) ||
  (a.toNat = 0xE3 && b.toNat = 0x80 && c.toNat = 0x80)

/-- Go `strings.TrimLeftFunc` with `unicode.IsSpace`: the encoded white-space
runes at the start are dropped. A byte that starts no valid encoding decodes to
U+FFFD, which is no white space, so a lone byte 0x85 or 0xA0 stops the scan. -/
def trimLeftSpace : Str → Str
  | [] => []
  | a :: t =>
    if asciiSpace a then trimLeftSpace t
    else match t with
      | [] => a :: t
      | b :: u =>
        if spaceSeq2 a b then trimLeftSpace u
        else match u with
          | [] => a :: t
          | c :: v => if spaceSeq3 a b c then trimLeftSpace v else a :: t

/-- Go `strings.TrimRightFunc` with `unicode.IsSpace`, on the reversed string:
`utf8.DecodeLastRuneInString` steps back to the nearest byte that starts a rune
and decodes from there, so an encoded white-space rune at the end is found
exactly when its bytes end the string. -/
def trimRightSpaceRev : Str → Str
  | [] => []
  | a :: t =>
    if asciiSpace a then trimRightSpaceRev t
    else match t with
      | [] => a :: t
      | b :: u =>
        if spaceSeq2 b a then trimRightSpaceRev u
        else match u with
          | [] => a :: t
          | c :: v => if spaceSeq3 c b a then trimRightSpaceRev v else a :: t

/-- Go `strings.TrimSpace`. The source first strips ASCII white space and hands
the rest to `TrimFunc` at the first byte from 0x80 on; both paths drop the
encoded white-space runes at the start and then those at the end. -/
def TrimSpace (s : Str) : Str :=
  (trimRightSpaceRev (trimLeftSpace s).reverse).reverse

def sAsset : Str := "asset".toList
def sAssetMeta : Str := "asset.meta".toList
def sPathname : Str := "pathname".toList
def sMeta : Str := ".meta".toList

/-! ## Filesystem and the `os` package -/

inductive Node where
  | file (content : Str)
  | dir
deriving DecidableEq

abbrev FS := Str → Option Node

/-- Map update, for the filesystem and for Go maps. -/
def upd {β : Type} (m : Str → Option β) (k : Str) (v : Option β) : Str → Option β :=
  fun q => if q = k then v else m q

/-- The names the kernel accepts (Linux limits): no NUL byte, no element longer
than 255 bytes (`NAME_MAX`) and at most 4095 bytes in all (`PATH_MAX`). -/
def validName (path : Str) : Prop :=
  Char.ofNat 0 ∉ path ∧ (∀ c ∈ splitSlash path, c.length ≤ 255) ∧ path.length ≤ 4095

instance (path : Str) : Decidable (validName path) := by
  unfold validName
  infer_instance

/-- One element of the kernel's walk along a path, on the stack of elements
walked so far (last element first). A `..` is looked up in the directory reached
so far, which must exist; below the working directory and at the root it is
always there. Other elements move as in `path.Clean`: an empty or `.` element
stays in place (that the place is a directory is left to the call, and
`os.MkdirAll` fails on a regular file either way). -/
def walkStep (fs : FS) (rooted : Bool) (acc : Option (List Str)) (c : Str) : Option (List Str) :=
  match acc with
  | none => none
  | some rev =>
    if c = dotdot then
      match rev with
      | [] => some (cleanStep rooted rev c)
      | top :: _ =>
        if top = dotdot then some (cleanStep rooted rev c)
        else if fs (render rooted rev.reverse) = some Node.dir then some (cleanStep rooted rev c)
        else none
    else some (cleanStep rooted rev c)

/-- The key under which the kernel looks a path up: `none` for the empty path,
for a name it does not accept, and for a `..` below a directory that does not
exist. -/
def resolve (fs : FS) (path : Str) : Option Str :=
  if path = [] then none
  else if validName path then
    match (splitSlash path).foldl (walkStep fs (isRooted path)) (some []) with
    | none => none
    | some rev => some (render (isRooted path) rev.reverse)
  else none

/-- Go `os.Stat`, as far as the program uses it: the node at a path. -/
def osStat (fs : FS) (path : Str) : Option Node :=
  match resolve fs path with
  | none => none
  | some key => fs key

/-- Go `os.Create`: the file is created or truncated; its directory must exist
and the path itself must not be a directory. -/
def osCreate (fs : FS) (name : Str) : Option FS :=
  match resolve fs name with
  | none => none
  | some key =>
    match fs key with
    | some Node.dir => none
    | _ => if fs (Dir key) = some Node.dir then some (upd fs key (some (Node.file []))) else none

/-- Go `os.Mkdir`: the path must not exist and its directory must. -/
def osMkdir (fs : FS) (path : Str) : Option FS :=
  match resolve fs path with
  | none => none
  | some key =>
    match fs key with
    | some _ => none
    | none => if fs (Dir key) = some Node.dir then some (upd fs key (some Node.dir)) else none

/-- The spellings `os.MkdirAll` is called with while it recurses on a path,
shortest first: the path cut after each of its elements. `pre` holds the
elements already passed. -/
def spellings (pre : List Str) : List Str → List Str
  | [] => []
  | c :: cs => (if c = [] then [] else [joinSlash (pre ++ [c])]) ++ spellings (pre ++ [c]) cs

/-- The recursion of `os.MkdirAll` over the spellings of a path, longest first:
a directory that exists ends it, a file in the way is an error, and otherwise
the parent is made first and then `os.Mkdir` is called, whose failure is
forgiven when the directory is there after all. -/
def mkdirDown (fs : FS) : List Str → Option FS
  | [] => some fs
  | p :: parents =>
    match osStat fs p with
    | some Node.dir => some fs
    | some (Node.file _) => none
    | none =>
      match mkdirDown fs parents with
      | none => none
      | some fs1 =>
        match osMkdir fs1 p with
        | some fs2 => some fs2
        | none => if osStat fs1 p = some Node.dir then some fs1 else none

/-- Go `os.MkdirAll`. -/
def osMkdirAll (fs : FS) (path : Str) : Option FS :=
  if path = [] then none else mkdirDown fs (spellings [] (splitSlash path)).reverse

/-- The directories `os.MkdirAll` visits for a cleaned path: the working
directory or the root, then each longer ancestor, ending with the path itself. -/
def dirChain (path : Str) : List Str :=
  (comps path).inits.map (render (isRooted path))

/-- The remainder of `q` below directory `d`: `some r` when `q = d ++ r` and `r` is
empty or starts with a slash. -/
def below (d q : Str) : Option Str :=
  if q.take d.length = d ∧ ((q.drop d.length).head? = none ∨ (q.drop d.length).head? = some '/')
  then some (q.drop d.length) else none

/-- Go `os.Rename`. A regular file replaces a regular file at the new path; a
directory moves with everything below it to a path that does not exist. The
directory of the new path must exist. (The kernel also lets a directory take
the place of an empty directory; whether a directory is empty cannot be read
off a filesystem given as a function, and the call is an error here. The
program moves the files it has written.) -/
def osRename (fs : FS) (oldpath newpath : Str) : Option FS :=
  match resolve fs oldpath, resolve fs newpath with
  | some old, some new =>
    if fs (Dir new) ≠ some Node.dir then none
    else match fs old with
      | none => none
      | some (Node.file c) =>
        if fs new = some Node.dir then none
        else some (upd (upd fs old none) new (some (Node.file c)))
      | some Node.dir =>
        if fs new ≠ none ∨ (below old new).isSome then none
        else some (fun q =>
          match below new q with
          | some r => fs (old ++ r)
          | none => if (below old q).isSome then none else fs q)
  | _, _ => none

/-! ## The `io` package and the tar stream -/

inductive IoErr where
  | EOF
  | ErrUnexpectedEOF
deriving DecidableEq

/-- Go `io.LimitReader`: at most `n` bytes of the source. -/
def LimitReader (src : Str) (n : Int) : Str := src.take n.toNat

/-- Go `io.Copy` into the open file `dst`: everything the source delivers is
appended; reaching the end of the source is not an error. -/
def Copy (fs : FS) (dst : Str) (src : Str) : FS × Int × Option IoErr :=
  match fs dst with
  | some (Node.file c) => (upd fs dst (some (Node.file (c ++ src))), (src.length : Int), none)
  | _ => (fs, 0, some IoErr.ErrUnexpectedEOF)

/-- Go `io.CopyN`. -/
def CopyN (fs : FS) (dst : Str) (src : Str) (n : Int) : FS × Int × Option IoErr :=
  match Copy fs dst (LimitReader src n) with
  | (fs1, written, err) =>
    if written = n then (fs1, n, none)
    else if written < n ∧ err = none then (fs1, written, some IoErr.EOF)
    else (fs1, written, err)

/-- Go `io.ReadFull` into a buffer of `n` bytes. -/
def ReadFull (src : Str) (n : Int) : Except IoErr Str :=
  if n.toNat ≤ src.length then Except.ok (src.take n.toNat)
  else if src = [] then Except.error IoErr.EOF
  else Except.error IoErr.ErrUnexpectedEOF

/-- A tar entry: the header fields `unpack` reads, and the bytes the reader
delivers for the entry. -/
structure Entry where
  Name : Str
  Size : Int
  payload : Str

/-! ## `unpack` and `move` -/

/-- The errors `unpack` and `move` return, one constructor per `fmt.Errorf`. -/
inductive Err where
  | noPath
  | openingFile
  | invalidPackage
  | cannotCreateOutputDir
  | readingContents
  | creating (path : Str)
  | extracting (path : Str)
  | readingPathInfo
  | creatingOutput (dir : Str)
  | moving (current targ : Str)
deriving DecidableEq

/-- A filesystem call issued by the program (kept as a history). -/
inductive Call where
  | create (path : Str)
  | mkdirAll (path : Str)
  | rename (current targ : Str)
deriving DecidableEq

/-- The variables of the extraction loop: the filesystem, the three maps of
`unpack`, and the history of filesystem calls. -/
structure State where
  fs : FS
  pendingRenames : Str → Option Str
  pendingMetaRenames : Str → Option Str
  nameLookup : Str → Option Str
  calls : List Call

/-- Result of a piece of the program: the error returned (if any) and the state
reached. -/
structure Outcome where
  err : Option Err
  st : State

/-- Function `move` of the source. `os.MkdirAll` reports a directory that exists
as success and never returns the sentinel `os.ErrExist`, so the test
`err != nil && err != os.ErrExist` is the test `err != nil`. -/
def move (s : State) (current targ : Str) : Outcome :=
  let s1 : State := { s with calls := s.calls ++ [Call.mkdirAll (Dir targ)] }
  match osMkdirAll s1.fs (Dir targ) with
  | none => ⟨some (Err.creatingOutput (Dir targ)), s1⟩
  | some fs1 =>
    let s2 : State := { s1 with fs := fs1, calls := s1.calls ++ [Call.rename current targ] }
    match osRename fs1 current targ with
    | none => ⟨some (Err.moving current targ), s2⟩
    | some fs2 => ⟨none, { s2 with fs := fs2 }⟩

/-- The name under which an entry is written (lines 104 to 119 of the source):
the known name of its identifier when there is one, else the identifier, with
`.meta` appended for a metadata entry. -/
def fileNameOf (s : State) (e : Entry) : Str :=
  let filename := match s.nameLookup (Dir e.Name) with
    | some saved => saved
    | none => Dir e.Name
  if Base e.Name = sAssetMeta then filename ++ sMeta else filename

/-- The bookkeeping of lines 105 to 114: when the identifier has no known name,
the path about to be written is recorded in the pending map of its kind. -/
def markPending (outputDir : Str) (s : State) (e : Entry) : State :=
  match s.nameLookup (Dir e.Name) with
  | some _ => s
  | none =>
    if Base e.Name = sAssetMeta then
      { s with
        pendingMetaRenames :=
          upd s.pendingMetaRenames (Dir e.Name) (some (Join outputDir (Dir e.Name ++ sMeta))) }
    else
      { s with
        pendingRenames :=
          upd s.pendingRenames (Dir e.Name) (some (Join outputDir (Dir e.Name))) }

/-- The first branch of the loop body (lines 104 to 129): an `asset` entry, or an
`asset.meta` entry when metadata is kept. -/
def writeEntry (outputDir : Str) (s : State) (e : Entry) : Outcome :=
  let s1 := markPending outputDir s e
  let target := Join outputDir (fileNameOf s e)
  let s2 : State := { s1 with calls := s1.calls ++ [Call.create target] }
  match osCreate s2.fs target with
  | none => ⟨some (Err.creating target), s2⟩
  | some fs1 =>
    match CopyN fs1 target e.payload e.Size with
    | (fs2, written, err) =>
      if err ≠ none ∨ written ≠ e.Size then ⟨some (Err.extracting target), { s2 with fs := fs2 }⟩
      else ⟨none, { s2 with fs := fs2 }⟩

/-- One of the two blocks at lines 142 to 153: when the pending map holds a path
for the identifier, the file there is moved to `targ`. -/
def moveIfPending (s : State) (pending : Option Str) (targ : Str) : Outcome :=
  match pending with
  | some current => move s current targ
  | none => ⟨none, s⟩

/-- The assignment `nameLookup[hash] = strpath` of line 137. -/
def setName (s : State) (hash strpath : Str) : State :=
  { s with nameLookup := upd s.nameLookup hash (some strpath) }

/-- The second branch of the loop body (lines 131 to 153): a `pathname` entry. -/
def resolveName (outputDir : Str) (s : State) (e : Entry) : Outcome :=
  match ReadFull e.payload e.Size with
  | Except.error _ => ⟨some Err.readingPathInfo, s⟩
  | Except.ok pathBytes =>
    let strpath := TrimSpace pathBytes
    let s1 := setName s (Dir e.Name) strpath
    let o1 := moveIfPending s1 (s1.pendingRenames (Dir e.Name)) (Join outputDir strpath)
    match o1.err with
    | some _ => o1
    | none =>
      moveIfPending o1.st (o1.st.pendingMetaRenames (Dir e.Name)) (Join outputDir (strpath ++ sMeta))

/-- Body of the `for` loop of `unpack` for one entry delivered by `tf.Next()`
(lines 96 to 154). -/
def step (outputDir : Str) (nometa : Bool) (s : State) (e : Entry) : Outcome :=
  let fname := Base e.Name
  let hash := Dir e.Name
  if fname = hash ∨ e.Size < 1 then ⟨none, s⟩
  else if fname = sAsset ∨ (nometa = false ∧ fname = sAssetMeta) then writeEntry outputDir s e
  else if fname = sPathname then resolveName outputDir s e
  else ⟨none, s⟩

/-- The `for` loop of `unpack` over the entries delivered before the end of the
archive: the first error ends the run. -/
def extractLoop (outputDir : Str) (nometa : Bool) : State → List Entry → Outcome
  | s, [] => ⟨none, s⟩
  | s, e :: es =>
    match (step outputDir nometa s e).err with
    | some err => ⟨some err, (step outputDir nometa s e).st⟩
    | none => extractLoop outputDir nometa (step outputDir nometa s e).st es

/-- What `cli.Context` provides: the positional arguments, the value of
`--output` when the flag is set, and `--nometa`. -/
structure Context where
  args : List Str
  output : Option Str
  nometa : Bool

/-- What opening the archive provides: whether the gzip header is valid, the
entries the tar reader delivers, and whether the reader then reports the end of
the archive (`io.EOF`) or an error. -/
structure Archive where
  gzipOk : Bool
  entries : List Entry
  endsClean : Bool

/-- The output directory `unpack` computes (lines 53 to 66 of the source). -/
def outputDirOf (c : Context) (load : Str) : Str :=
  let outputDir := Dir ['.']
  let fileNoExt := TrimSuffix load (Ext load)
  let outputDir := if Base fileNoExt ≠ Base load then Base fileNoExt else outputDir
  match c.output with
  | some o => o
  | none => outputDir

/-- State of `unpack` when the loop starts on filesystem `fs`. -/
def initState (fs : FS) (calls : List Call) : State :=
  ⟨fs, fun _ => none, fun _ => none, fun _ => none, calls⟩

/-- Function `unpack` of the source. `openFile` is `os.Open` followed by the
readers: `none` when the file cannot be opened. -/
def unpack (c : Context) (openFile : Str → Option Archive) (fs : FS) : Outcome :=
  match c.args with
  | [] => ⟨some Err.noPath, initState fs []⟩
  | load :: _ =>
    match openFile load with
    | none => ⟨some Err.openingFile, initState fs []⟩
    | some ar =>
      let outputDir := outputDirOf c load
      if ar.gzipOk = false then ⟨some Err.invalidPackage, initState fs []⟩
      else
        match osMkdirAll fs outputDir with
        | none => ⟨some Err.cannotCreateOutputDir, initState fs [Call.mkdirAll outputDir]⟩
        | some fs1 =>
          let o := extractLoop outputDir c.nometa (initState fs1 [Call.mkdirAll outputDir]) ar.entries
          match o.err with
          | some _ => o
          | none => if ar.endsClean then o else ⟨some Err.readingContents, o.st⟩

/-! ## Concrete filesystems and archives used by the examples -/

/-- A filesystem holding exactly the listed directories. -/
def dirsOnly (dirs : List Str) : FS := fun q => if q ∈ dirs then some Node.dir else none

/-- The working directory and an empty output root `out`. -/
def fsOut : FS := dirsOnly [".".toList, "out".toList]

def outDir : Str := "out".toList

def eAsset2 : Entry := ⟨"id2/asset".toList, 4, "DATA".toList⟩
def ePath2 : Entry := ⟨"id2/pathname".toList, 16, "Scripts/Move.cs\n".toList⟩
def eShort : Entry := ⟨"id2/asset".toList, 8, "DATA".toList⟩
def eEmpty : Entry := ⟨"id2/asset".toList, 0, []⟩
def ePathA : Entry := ⟨"id1/pathname".toList, 1, "a".toList⟩
def ePathB : Entry := ⟨"id1/pathname".toList, 1, "b".toList⟩
def eAsset1 : Entry := ⟨"id1/asset".toList, 1024, List.replicate 1024 'x'⟩
def ePath1 : Entry := ⟨"id1/pathname".toList, 17, "Textures/Rock.png".toList⟩
def eMeta2 : Entry := ⟨"id2/asset.meta".toList, 4, "META".toList⟩
def eAsset3 : Entry := ⟨"id3/asset".toList, 4, "DATA".toList⟩
def ePathUp3 : Entry := ⟨"id3/pathname".toList, 11, "../evil.txt".toList⟩

/-- The bytes C2 A0 (a no-break space in UTF-8) before `../evil.txt`. -/
def ePathNbsp3 : Entry :=
  ⟨"id3/pathname".toList, 13, Char.ofNat 0xC2 :: Char.ofNat 0xA0 :: "../evil.txt".toList⟩

/-- A file name of 256 bytes, one more than a directory entry can hold. -/
def longName : Str := List.replicate 256 'a'

def ePathLong2 : Entry := ⟨"id2/pathname".toList, 256, longName⟩

/-- Whether `dest` lies inside `root`: both cleaned paths are rooted or both are
not, the elements of the cleaned root are a proper initial part of the elements
of the cleaned destination, and the remaining elements contain no `..`. -/
def inside (root dest : Str) : Prop :=
  isRooted (Clean root) = isRooted (Clean dest) ∧
  (comps (Clean root)).length < (comps (Clean dest)).length ∧
  (comps (Clean dest)).take (comps (Clean root)).length = comps (Clean root) ∧
  dotdot ∉ (comps (Clean dest)).drop (comps (Clean root)).length

instance (root dest : Str) : Decidable (inside root dest) := by
  unfold inside
  infer_instance

/-! ## Shape of cleaned paths -/

/-- An element that `path.Clean` writes to its output: not empty, not `.`, and
free of slashes. -/
def RealElem (c : Str) : Prop := c ≠ [] ∧ c ≠ ['.'] ∧ '/' ∉ c

/-- Shape of the output of `path.Clean` (last element first): written elements
only, with `..` elements only at the very start of the path and only in a path
that is not rooted. -/
def GoodStack (rooted : Bool) (rev : List Str) : Prop :=
  (∀ c ∈ rev, RealElem c) ∧
  ∃ (body : List Str) (k : Nat), rev = body ++ List.replicate k dotdot ∧ dotdot ∉ body ∧
    (rooted = true → k = 0)

/-- A relative name that stays below the directory it is joined to: no element
is `..` and at least one element is neither empty nor `.`. -/
def safeName (s : Str) : Prop :=
  dotdot ∉ splitSlash s ∧ ∃ c ∈ splitSlash s, c ≠ [] ∧ c ≠ ['.']

instance (s : Str) : Decidable (safeName s) := by
  unfold safeName
  infer_instance

/-- Whether `path.Clean` keeps an element that is not `..`. -/
def keptElem (c : Str) : Bool := decide (c ≠ [] ∧ c ≠ ['.'])

/-- What containment asks of one filesystem call: a created file and the target
of a move lie inside the output root, and directories are made only for the
parent of a path inside the output root. -/
def goodCall (out : Str) : Call → Prop
  | Call.create p => inside out p
  | Call.mkdirAll d => ∃ t, inside out t ∧ d = Dir t
  | Call.rename _ t => inside out t

/-- An entry the loop acts on has a safe identifier and, when it is a pathname
entry, a safe trimmed payload. -/
def safeEntry (e : Entry) : Prop :=
  Base e.Name ≠ Dir e.Name → 1 ≤ e.Size →
    safeName (Dir e.Name) ∧
      (Base e.Name = sPathname → safeName (TrimSpace (e.payload.take e.Size.toNat)))

/-- The paths at which a call puts a file: the path of a created file, the
target of a move. -/
def targetsOf : Call → List Str
  | Call.create p => [p]
  | Call.mkdirAll _ => []
  | Call.rename _ t => [t]

/-- Whether an entry is a metadata entry by its base name. -/
def isMetaEntry (e : Entry) : Bool := decide (Base e.Name = sAssetMeta)

/-! ## Entries of one identifier -/

theorem splitSlash_ne_nil (s : Str) : splitSlash s ≠ [] := by
  cases s with
  | nil => simp [splitSlash]
  | cons c cs =>
    unfold splitSlash
    split_ifs
    · simp
    · split <;> simp

theorem splitSlash_cons_slash (s : Str) : splitSlash ('/' :: s) = [] :: splitSlash s := by
  rw [splitSlash]
  simp

theorem splitSlash_cons_other (c : Char) (s x : Str) (xs : List Str) (hc : c ≠ '/')
    (h : splitSlash s = x :: xs) : splitSlash (c :: s) = (c :: x) :: xs := by
  rw [splitSlash, if_neg hc, h]

theorem splitSlash_append_slash (a b : Str) :
    splitSlash (a ++ '/' :: b) = splitSlash a ++ splitSlash b := by
  induction a with
  | nil => simp [splitSlash]
  | cons c a ih =>
    by_cases hc : c = '/'
    · subst hc
      rw [List.cons_append, splitSlash_cons_slash, splitSlash_cons_slash, ih]
      rfl
    · obtain ⟨x, xs, hx⟩ := List.exists_cons_of_ne_nil (splitSlash_ne_nil a)
      rw [List.cons_append, splitSlash_cons_other c _ x (xs ++ splitSlash b) hc,
        splitSlash_cons_other c a x xs hc hx]
      · rfl
      · rw [ih, hx]
        rfl

theorem splitSlash_noslash (w : Str) (h : '/' ∉ w) : splitSlash w = [w] := by
  induction w with
  | nil => rfl
  | cons c w ih =>
    have hc : c ≠ '/' := fun e => h (by simp [e])
    have hw : '/' ∉ w := fun e => h (List.mem_cons_of_mem _ e)
    exact splitSlash_cons_other c w w [] hc (ih hw)

theorem splitSlash_elems (s : Str) : ∀ c ∈ splitSlash s, '/' ∉ c := by
  induction s with
  | nil => simp [splitSlash]
  | cons a s ih =>
    by_cases ha : a = '/'
    · subst ha
      rw [splitSlash_cons_slash]
      intro c hc
      rcases List.mem_cons.mp hc with h | h
      · subst h; simp
      · exact ih c h
    · obtain ⟨x, xs, hx⟩ := List.exists_cons_of_ne_nil (splitSlash_ne_nil s)
      rw [splitSlash_cons_other a s x xs ha hx]
      rw [hx] at ih
      intro c hc
      rcases List.mem_cons.mp hc with h | h
      · subst h
        intro hmem
        rcases List.mem_cons.mp hmem with h1 | h1
        · exact ha h1.symm
        · exact ih x (List.mem_cons_self _ _) h1
      · exact ih c (List.mem_cons_of_mem _ h)

theorem splitSlash_joinSlash (st : List Str) (hne : st ≠ []) (h : ∀ c ∈ st, '/' ∉ c) :
    splitSlash (joinSlash st) = st := by
  induction st with
  | nil => exact absurd rfl hne
  | cons x rest ih =>
    cases rest with
    | nil =>
      exact splitSlash_noslash x (h x (List.mem_cons_self _ _))
    | cons y rest =>
      rw [joinSlash, splitSlash_append_slash,
        splitSlash_noslash x (h x (List.mem_cons_self _ _)),
        ih (by simp) (fun c hc => h c (List.mem_cons_of_mem _ hc))]
      rfl

theorem dotdot_real : RealElem dotdot := by
  refine ⟨by decide, by decide, by decide⟩

theorem cleanStep_skip (rooted : Bool) (rev : List Str) (c : Str) (h : c = [] ∨ c = ['.']) :
    cleanStep rooted rev c = rev := by
  unfold cleanStep
  rw [if_pos h]

theorem cleanStep_push (rooted : Bool) (rev : List Str) (c : Str) (h1 : c ≠ []) (h2 : c ≠ ['.'])
    (h3 : c ≠ dotdot) : cleanStep rooted rev c = c :: rev := by
  unfold cleanStep
  rw [if_neg (by rintro (h | h); exact h1 h; exact h2 h), if_neg h3]

theorem cleanStep_dotdot (rooted : Bool) (rev : List Str) :
    cleanStep rooted rev dotdot =
      match rev with
      | [] => if rooted then [] else [dotdot]
      | top :: rest => if top = dotdot then (if rooted then rev else dotdot :: rev) else rest := by
  unfold cleanStep
  rw [if_neg (by decide), if_pos rfl]

theorem cleanStep_good (rooted : Bool) (rev : List Str) (c : Str) (hc : '/' ∉ c)
    (h : GoodStack rooted rev) : GoodStack rooted (cleanStep rooted rev c) := by
  by_cases h1 : c = [] ∨ c = ['.']
  · rw [cleanStep_skip rooted rev c h1]
    exact h
  · have c1 : c ≠ [] := fun e => h1 (Or.inl e)
    have c2 : c ≠ ['.'] := fun e => h1 (Or.inr e)
    obtain ⟨hreal, body, k, hrev, hbody, hk⟩ := h
    by_cases h3 : c = dotdot
    · subst h3
      rw [cleanStep_dotdot]
      cases rev with
      | nil =>
        cases rooted with
        | true =>
          exact ⟨by simp, [], 0, by simp, by simp, fun _ => rfl⟩
        | false =>
          refine ⟨?_, [], 1, by simp, by simp, by simp⟩
          intro x hx
          rw [if_neg (by simp)] at hx
          rw [List.mem_singleton.mp hx]
          exact dotdot_real
      | cons top rest =>
        simp only
        by_cases ht : top = dotdot
        · rw [if_pos ht]
          have hb : body = [] := by
            cases body with
            | nil => rfl
            | cons b body =>
              exfalso
              rw [List.cons_append] at hrev
              have : top = b := (List.cons.inj hrev).1
              apply hbody
              rw [← this, ht]
              exact List.mem_cons_self _ _
          subst hb
          rw [List.nil_append] at hrev
          cases rooted with
          | true =>
            have : k = 0 := hk rfl
            subst this
            simp at hrev
          | false =>
            refine ⟨?_, [], k + 1, ?_, by simp, by simp⟩
            · intro x hx
              rw [if_neg (by simp)] at hx
              rcases List.mem_cons.mp hx with hx | hx
              · rw [hx]; exact dotdot_real
              · exact hreal x hx
            · rw [if_neg (by simp), hrev, List.nil_append, List.replicate_succ]
        · rw [if_neg ht]
          cases body with
          | nil =>
            exfalso
            rw [List.nil_append] at hrev
            have : top ∈ List.replicate k dotdot := by
              rw [← hrev]; exact List.mem_cons_self _ _
            exact ht (List.eq_of_mem_replicate this)
          | cons b body =>
            rw [List.cons_append] at hrev
            have hrest : rest = body ++ List.replicate k dotdot := (List.cons.inj hrev).2
            refine ⟨fun x hx => hreal x (List.mem_cons_of_mem _ hx), body, k, hrest, ?_, hk⟩
            exact fun e => hbody (List.mem_cons_of_mem _ e)
    · rw [cleanStep_push rooted rev c c1 c2 h3]
      refine ⟨?_, c :: body, k, by rw [hrev]; rfl, ?_, hk⟩
      · intro x hx
        rcases List.mem_cons.mp hx with hx | hx
        · rw [hx]; exact ⟨c1, c2, hc⟩
        · exact hreal x hx
      · intro e
        rcases List.mem_cons.mp e with e | e
        · exact h3 e.symm
        · exact hbody e

theorem foldl_cleanStep_good (rooted : Bool) (l : List Str) (rev : List Str)
    (hl : ∀ c ∈ l, '/' ∉ c) (h : GoodStack rooted rev) :
    GoodStack rooted (l.foldl (cleanStep rooted) rev) := by
  induction l generalizing rev with
  | nil => exact h
  | cons c l ih =>
    rw [List.foldl_cons]
    exact ih _ (fun x hx => hl x (List.mem_cons_of_mem _ hx))
      (cleanStep_good rooted rev c (hl c (List.mem_cons_self _ _)) h)

theorem goodStack_nil (rooted : Bool) : GoodStack rooted [] :=
  ⟨by simp, [], 0, by simp, by simp, fun _ => rfl⟩

theorem cleanStack_good (path : Str) : GoodStack (isRooted path) (cleanStack path) :=
  foldl_cleanStep_good _ _ _ (splitSlash_elems path) (goodStack_nil _)

theorem foldl_cleanStep_push (rooted : Bool) (l : List Str) (acc : List Str)
    (hl : ∀ c ∈ l, c ≠ [] ∧ c ≠ ['.'] ∧ c ≠ dotdot) :
    l.foldl (cleanStep rooted) acc = l.reverse ++ acc := by
  induction l generalizing acc with
  | nil => rfl
  | cons c l ih =>
    obtain ⟨c1, c2, c3⟩ := hl c (List.mem_cons_self _ _)
    rw [List.foldl_cons, cleanStep_push rooted acc c c1 c2 c3,
      ih _ (fun x hx => hl x (List.mem_cons_of_mem _ hx))]
    simp

theorem cleanStep_dotdot_up (j : Nat) :
    cleanStep false (List.replicate j dotdot) dotdot = List.replicate (j + 1) dotdot := by
  rw [cleanStep_dotdot]
  cases j with
  | zero => rfl
  | succ j =>
    rw [List.replicate_succ]
    simp only [if_true, Bool.false_eq_true, if_false]
    rfl

theorem foldl_cleanStep_dotdots (k j : Nat) :
    (List.replicate k dotdot).foldl (cleanStep false) (List.replicate j dotdot) =
      List.replicate (j + k) dotdot := by
  induction k generalizing j with
  | zero => rfl
  | succ k ih =>
    rw [List.replicate_succ, List.foldl_cons, cleanStep_dotdot_up, ih (j + 1)]
    congr 1
    omega

theorem reparse_stack (rooted : Bool) (rev : List Str) (h : GoodStack rooted rev) :
    rev.reverse.foldl (cleanStep rooted) [] = rev := by
  obtain ⟨hreal, body, k, hrev, hbody, hk⟩ := h
  subst hrev
  rw [List.reverse_append, List.reverse_replicate, List.foldl_append]
  have hfirst : (List.replicate k dotdot).foldl (cleanStep rooted) [] = List.replicate k dotdot := by
    cases rooted with
    | true =>
      rw [hk rfl]
      rfl
    | false =>
      have := foldl_cleanStep_dotdots k 0
      simpa using this
  rw [hfirst, foldl_cleanStep_push]
  · simp
  · intro c hc
    have hc1 : c ∈ body := List.mem_reverse.mp hc
    obtain ⟨r1, r2, -⟩ := hreal c (List.mem_append_left _ hc1)
    exact ⟨r1, r2, fun e => hbody (e ▸ hc1)⟩

theorem joinSlash_cons (x : Str) (rest : List Str) (h : rest ≠ []) :
    joinSlash (x :: rest) = x ++ '/' :: joinSlash rest := by
  cases rest with
  | nil => exact absurd rfl h
  | cons y rest => rfl

theorem joinSlash_head (st : List Str) (hne : st ≠ []) (h : ∀ c ∈ st, RealElem c) :
    ∃ a rest, joinSlash st = a :: rest ∧ a ≠ '/' := by
  cases st with
  | nil => exact absurd rfl hne
  | cons x more =>
    obtain ⟨x1, -, x3⟩ := h x (List.mem_cons_self _ _)
    obtain ⟨a, xs, hx⟩ := List.exists_cons_of_ne_nil x1
    have ha : a ≠ '/' := by
      intro e
      apply x3
      rw [hx, e]
      exact List.mem_cons_self _ _
    cases more with
    | nil => exact ⟨a, xs, hx, ha⟩
    | cons y more =>
      refine ⟨a, xs ++ '/' :: joinSlash (y :: more), ?_, ha⟩
      rw [joinSlash, hx]
      rfl

theorem render_ne_nil (rooted : Bool) (st : List Str) (h : ∀ c ∈ st, RealElem c) :
    render rooted st ≠ [] := by
  unfold render
  cases rooted with
  | true => simp
  | false =>
    by_cases hst : st = []
    · simp [hst]
    · obtain ⟨a, rest, hj, -⟩ := joinSlash_head st hst h
      simp [hst, hj]

theorem isRooted_render (rooted : Bool) (st : List Str) (h : ∀ c ∈ st, RealElem c) :
    isRooted (render rooted st) = rooted := by
  unfold render
  cases rooted with
  | true => simp [isRooted]
  | false =>
    by_cases hst : st = []
    · simp [hst, isRooted]
    · obtain ⟨a, rest, hj, ha⟩ := joinSlash_head st hst h
      simp [hst, hj, isRooted, ha]

theorem cleanStack_render (rooted : Bool) (rev : List Str) (h : GoodStack rooted rev) :
    cleanStack (render rooted rev.reverse) = rev := by
  have hreal : ∀ c ∈ rev.reverse, RealElem c := fun c hc => h.1 c (List.mem_reverse.mp hc)
  unfold cleanStack
  rw [isRooted_render rooted _ hreal]
  have hre := reparse_stack rooted rev h
  by_cases hst : rev.reverse = []
  · have hrev : rev = [] := List.reverse_eq_nil_iff.mp hst
    subst hrev
    cases rooted with
    | true => decide
    | false => decide
  · have hsplit : splitSlash (joinSlash rev.reverse) = rev.reverse :=
      splitSlash_joinSlash _ hst (fun c hc => (hreal c hc).2.2)
    unfold render
    cases rooted with
    | true =>
      simp only [if_true]
      rw [splitSlash_cons_slash, hsplit, List.foldl_cons, cleanStep_skip _ _ _ (Or.inl rfl)]
      exact hre
    | false =>
      simp only [Bool.false_eq_true, if_false, hst]
      rw [hsplit]
      exact hre

theorem Clean_ne_nil (path : Str) : Clean path ≠ [] := by
  unfold Clean
  split_ifs
  · simp
  · exact render_ne_nil _ _ (fun c hc => (cleanStack_good path).1 c (List.mem_reverse.mp hc))

theorem cleanStack_Clean (path : Str) : cleanStack (Clean path) = cleanStack path := by
  unfold Clean
  split_ifs with h
  · subst h; decide
  · unfold comps
    exact cleanStack_render _ _ (cleanStack_good path)

theorem isRooted_Clean (path : Str) : isRooted (Clean path) = isRooted path := by
  unfold Clean
  split_ifs with h
  · subst h; decide
  · exact isRooted_render _ _ (fun c hc => (cleanStack_good path).1 c (List.mem_reverse.mp hc))

theorem comps_Clean (path : Str) : comps (Clean path) = comps path := by
  unfold comps
  rw [cleanStack_Clean]

theorem Clean_idem (path : Str) : Clean (Clean path) = Clean path := by
  have h1 := comps_Clean path
  have h2 := isRooted_Clean path
  have h3 := Clean_ne_nil path
  by_cases h : path = []
  · subst h; decide
  · have e1 : Clean (Clean path) = render (isRooted (Clean path)) (comps (Clean path)) := by
      generalize Clean path = q at h3
      unfold Clean
      rw [if_neg h3]
    have e2 : Clean path = render (isRooted path) (comps path) := by
      unfold Clean
      rw [if_neg h]
    rw [e1, h1, h2, ← e2]

/-! ## Joined paths -/

theorem isRooted_append (a b : Str) (h : a ≠ []) : isRooted (a ++ b) = isRooted a := by
  cases a with
  | nil => exact absurd rfl h
  | cons c a => rfl

theorem cleanStack_join (a b : Str) (h : a ≠ []) :
    cleanStack (a ++ '/' :: b) =
      (splitSlash b).foldl (cleanStep (isRooted a)) (cleanStack a) := by
  unfold cleanStack
  rw [isRooted_append a _ h, splitSlash_append_slash, List.foldl_append]

theorem foldl_cleanStep_safe (rooted : Bool) (l : List Str) (acc : List Str)
    (hl : dotdot ∉ l) :
    l.foldl (cleanStep rooted) acc = (l.filter keptElem).reverse ++ acc := by
  induction l generalizing acc with
  | nil => rfl
  | cons c l ih =>
    have hc : c ≠ dotdot := fun e => hl (e ▸ List.mem_cons_self _ _)
    have hl2 : dotdot ∉ l := fun e => hl (List.mem_cons_of_mem _ e)
    rw [List.foldl_cons, ih _ hl2]
    by_cases hk : c ≠ [] ∧ c ≠ ['.']
    · rw [cleanStep_push rooted acc c hk.1 hk.2 hc]
      have : keptElem c = true := by simp [keptElem, hk.1, hk.2]
      rw [List.filter_cons_of_pos this]
      simp
    · have hs : c = [] ∨ c = ['.'] := by
        by_contra hne
        exact hk ⟨fun e => hne (Or.inl e), fun e => hne (Or.inr e)⟩
      rw [cleanStep_skip rooted acc c hs]
      have : ¬ keptElem c = true := by
        rcases hs with e | e <;> simp [keptElem, e]
      rw [List.filter_cons_of_neg this]

theorem Join_eq (a b : Str) (h : a ≠ []) : Join a b = Clean (a ++ '/' :: b) := by
  unfold Join
  rw [if_neg (fun e => h e.1), if_neg h]

theorem comps_Join (out s : Str) (hout : out ≠ []) (hs : dotdot ∉ splitSlash s) :
    comps (Join out s) = comps out ++ (splitSlash s).filter keptElem := by
  rw [Join_eq out s hout, comps_Clean]
  unfold comps
  rw [cleanStack_join out s hout, foldl_cleanStep_safe _ _ _ hs]
  simp

theorem isRooted_Join (out s : Str) (hout : out ≠ []) : isRooted (Join out s) = isRooted out := by
  rw [Join_eq out s hout, isRooted_Clean, isRooted_append out _ hout]

theorem keptElem_ne_dotdot_of_safe (s : Str) (hs : dotdot ∉ splitSlash s) :
    dotdot ∉ (splitSlash s).filter keptElem :=
  fun e => hs (List.mem_of_mem_filter e)

/-- A safe name joined to the output root gives a path inside the output root. -/
theorem inside_Join (out s : Str) (hout : out ≠ []) (hs : safeName s) :
    inside out (Join out s) := by
  obtain ⟨h1, c, hc, c1, c2⟩ := hs
  have hcomps := comps_Join out s hout h1
  have hne : (splitSlash s).filter keptElem ≠ [] := by
    have : c ∈ (splitSlash s).filter keptElem := by
      rw [List.mem_filter]
      exact ⟨hc, by simp [keptElem, c1, c2]⟩
    exact List.ne_nil_of_mem this
  have hlen : 0 < ((splitSlash s).filter keptElem).length := List.length_pos.mpr hne
  unfold inside
  rw [comps_Clean, comps_Clean, isRooted_Clean, isRooted_Clean, isRooted_Join out s hout, hcomps]
  refine ⟨rfl, ?_, ?_, ?_⟩
  · rw [List.length_append]; omega
  · simp
  · simp only [List.drop_left']
    exact keptElem_ne_dotdot_of_safe s h1

theorem splitSlash_append_noslash (s w : Str) (hw : '/' ∉ w) :
    ∃ init last, splitSlash s = init ++ [last] ∧ splitSlash (s ++ w) = init ++ [last ++ w] := by
  induction s with
  | nil => exact ⟨[], [], rfl, by simpa using splitSlash_noslash w hw⟩
  | cons c s ih =>
    obtain ⟨init, last, h1, h2⟩ := ih
    by_cases hc : c = '/'
    · subst hc
      refine ⟨[] :: init, last, ?_, ?_⟩
      · rw [splitSlash_cons_slash, h1]; rfl
      · rw [List.cons_append, splitSlash_cons_slash, h2]; rfl
    · cases init with
      | nil =>
        refine ⟨[], c :: last, ?_, ?_⟩
        · exact splitSlash_cons_other c s last [] hc h1
        · exact splitSlash_cons_other c (s ++ w) (last ++ w) [] hc h2
      | cons i init =>
        refine ⟨(c :: i) :: init, last, ?_, ?_⟩
        · exact splitSlash_cons_other c s i (init ++ [last]) hc h1
        · exact splitSlash_cons_other c (s ++ w) i (init ++ [last ++ w]) hc h2

theorem safeName_meta (s : Str) (hs : dotdot ∉ splitSlash s) : safeName (s ++ sMeta) := by
  obtain ⟨init, last, h1, h2⟩ := splitSlash_append_noslash s sMeta (by decide)
  have hlen : 5 ≤ (last ++ sMeta).length := by
    rw [List.length_append]
    have : sMeta.length = 5 := by decide
    omega
  have hne : ∀ t : Str, t.length < 5 → last ++ sMeta ≠ t := by
    intro t ht e
    rw [e] at hlen
    omega
  unfold safeName
  rw [h2]
  refine ⟨?_, last ++ sMeta, by simp, hne [] (by decide), hne ['.'] (by decide)⟩
  intro hmem
  rcases List.mem_append.mp hmem with h | h
  · exact hs (by rw [h1]; exact List.mem_append_left _ h)
  · exact hne dotdot (by decide) (List.mem_singleton.mp h).symm

/-! ## Parents of cleaned paths -/

theorem takeWhile_stop (p : Char → Bool) (w rest : Str) (hw : ∀ c ∈ w, p c = true)
    (hrest : rest = [] ∨ ∃ a t, rest = a :: t ∧ p a = false) :
    (w ++ rest).takeWhile p = w := by
  induction w with
  | nil =>
    rcases hrest with h | ⟨a, t, h, ha⟩
    · simp [h]
    · simp [h, List.takeWhile_cons, ha]
  | cons c w ih =>
    rw [List.cons_append, List.takeWhile_cons, hw c (List.mem_cons_self _ _)]
    simp only [if_true]
    rw [ih (fun x hx => hw x (List.mem_cons_of_mem _ hx))]

theorem lastElem_append (d w : Str) (hd : d = [] ∨ d.getLast? = some '/') (hw : '/' ∉ w) :
    lastElem (d ++ w) = w := by
  unfold lastElem
  rw [List.reverse_append, takeWhile_stop _ w.reverse d.reverse]
  · simp
  · intro c hc
    have : c ≠ '/' := fun e => hw (e ▸ List.mem_reverse.mp hc)
    simpa using this
  · rcases hd with h | h
    · left; simp [h]
    · right
      obtain ⟨a, t, hat⟩ : ∃ a t, d.reverse = a :: t := by
        cases hr : d.reverse with
        | nil =>
          have : d = [] := List.reverse_eq_nil_iff.mp hr
          rw [this] at h
          simp at h
        | cons a t => exact ⟨a, t, rfl⟩
      refine ⟨a, t, hat, ?_⟩
      have hl : d.getLast? = some a := by
        rw [List.getLast?_eq_head?_reverse, hat]
        rfl
      rw [hl] at h
      have : a = '/' := Option.some.inj h
      simp [this]

theorem goodStack_real (rooted : Bool) (rev : List Str) (h : GoodStack rooted rev) :
    ∀ c ∈ rev.reverse, RealElem c := fun c hc => h.1 c (List.mem_reverse.mp hc)

theorem comps_render (rooted : Bool) (rev : List Str) (h : GoodStack rooted rev) :
    comps (render rooted rev.reverse) = rev.reverse := by
  unfold comps
  rw [cleanStack_render _ _ h]

theorem goodStack_tail (rooted : Bool) (c : Str) (rev : List Str)
    (h : GoodStack rooted (c :: rev)) : GoodStack rooted rev := by
  obtain ⟨hreal, body, k, hrev, hbody, hk⟩ := h
  refine ⟨fun x hx => hreal x (List.mem_cons_of_mem _ hx), ?_⟩
  cases body with
  | nil =>
    cases k with
    | zero => simp at hrev
    | succ k =>
      rw [List.replicate_succ] at hrev
      simp only [List.nil_append, List.cons.injEq] at hrev
      refine ⟨[], k, by simp [hrev.2], by simp, ?_⟩
      intro hr
      have := hk hr
      omega
  | cons b body =>
    simp only [List.cons_append, List.cons.injEq] at hrev
    exact ⟨body, k, hrev.2, fun e => hbody (List.mem_cons_of_mem _ e), hk⟩

theorem joinSlash_snoc (st : List Str) (c : Str) (hst : st ≠ []) :
    joinSlash (st ++ [c]) = joinSlash st ++ '/' :: c := by
  induction st with
  | nil => exact absurd rfl hst
  | cons x rest ih =>
    cases rest with
    | nil => rfl
    | cons y rest =>
      have e : (x :: y :: rest) ++ [c] = x :: ((y :: rest) ++ [c]) := rfl
      rw [e, joinSlash_cons x _ (by simp), ih (by simp), joinSlash_cons x _ (by simp)]
      simp

theorem render_snoc (rooted : Bool) (st : List Str) (c : Str) (hst : st ≠ []) :
    render rooted (st ++ [c]) = render rooted st ++ '/' :: c := by
  unfold render
  cases rooted with
  | true =>
    simp only [if_true]
    rw [joinSlash_snoc st c hst]
    rfl
  | false =>
    simp only [Bool.false_eq_true, if_false, hst]
    rw [if_neg (by simp), joinSlash_snoc st c hst]

theorem dirChain_render (rooted : Bool) (rev : List Str) (h : GoodStack rooted rev) :
    dirChain (render rooted rev.reverse) = rev.reverse.inits.map (render rooted) := by
  unfold dirChain
  rw [comps_render rooted rev h, isRooted_render rooted _ (goodStack_real rooted rev h)]

theorem dirChain_render_cons (rooted : Bool) (c : Str) (rev : List Str)
    (h : GoodStack rooted (c :: rev)) :
    dirChain (render rooted (c :: rev).reverse) =
      dirChain (render rooted rev.reverse) ++ [render rooted (c :: rev).reverse] := by
  rw [dirChain_render rooted _ h, dirChain_render rooted _ (goodStack_tail rooted c rev h),
    List.reverse_cons, List.inits_append]
  simp [List.inits]

theorem validName_append_slash (d w : Str) (h : validName (d ++ '/' :: w)) : validName d := by
  obtain ⟨h1, h2, h3⟩ := h
  refine ⟨fun e => h1 (List.mem_append_left _ e), ?_, ?_⟩
  · intro c hc
    apply h2
    rw [splitSlash_append_slash]
    exact List.mem_append_left _ hc
  · rw [List.length_append] at h3
    omega

theorem validName_render_tail (rooted : Bool) (c : Str) (rev : List Str)
    (h : validName (render rooted (c :: rev).reverse)) : validName (render rooted rev.reverse) := by
  by_cases hrev : rev = []
  · subst hrev
    cases rooted <;> decide
  · have hst : rev.reverse ≠ [] := fun e => hrev (List.reverse_eq_nil_iff.mp e)
    rw [List.reverse_cons, render_snoc rooted _ c hst] at h
    exact validName_append_slash _ _ h

theorem walkStep_other (fs : FS) (rooted : Bool) (rev : List Str) (c : Str) (h : c ≠ dotdot) :
    walkStep fs rooted (some rev) c = some (cleanStep rooted rev c) := by
  unfold walkStep
  simp only
  rw [if_neg h]

theorem walkStep_cases (fs : FS) (rooted : Bool) (rev : List Str) (c : Str) :
    walkStep fs rooted (some rev) c = some (cleanStep rooted rev c) ∨
      walkStep fs rooted (some rev) c = none := by
  by_cases c1 : c = dotdot
  · unfold walkStep
    simp only
    rw [if_pos c1]
    cases rev with
    | nil => exact Or.inl rfl
    | cons top rest =>
      simp only
      by_cases c2 : top = dotdot
      · rw [if_pos c2]
        exact Or.inl rfl
      · rw [if_neg c2]
        by_cases c3 : fs (render rooted (top :: rest).reverse) = some Node.dir
        · rw [if_pos c3]
          exact Or.inl rfl
        · rw [if_neg c3]
          exact Or.inr rfl
  · exact Or.inl (walkStep_other fs rooted rev c c1)

theorem foldl_walk_none (fs : FS) (rooted : Bool) (l : List Str) :
    l.foldl (walkStep fs rooted) none = none := by
  induction l with
  | nil => rfl
  | cons c l ih =>
    rw [List.foldl_cons]
    exact ih

/-- A walk that succeeds ends where `path.Clean` ends. -/
theorem walk_some (fs : FS) (rooted : Bool) (l : List Str) (acc rev : List Str)
    (h : l.foldl (walkStep fs rooted) (some acc) = some rev) :
    rev = l.foldl (cleanStep rooted) acc := by
  induction l generalizing acc with
  | nil => exact (Option.some.inj h).symm
  | cons c l ih =>
    rw [List.foldl_cons] at h
    rcases walkStep_cases fs rooted acc c with e | e
    · rw [e] at h
      rw [List.foldl_cons]
      exact ih _ h
    · rw [e, foldl_walk_none] at h
      simp at h

/-- A path that resolves is not empty, is accepted by the kernel, and is looked
up under its cleaned spelling. -/
theorem resolve_some (fs : FS) (path key : Str) (h : resolve fs path = some key) :
    path ≠ [] ∧ validName path ∧ key = Clean path := by
  unfold resolve at h
  by_cases h1 : path = []
  · simp [h1] at h
  · by_cases h2 : validName path
    · rw [if_neg h1, if_pos h2] at h
      refine ⟨h1, h2, ?_⟩
      split at h
      · simp at h
      · rename_i rev hw
        have e2 := walk_some fs _ _ _ rev hw
        unfold Clean comps cleanStack
        rw [if_neg h1, ← e2]
        exact (Option.some.inj h).symm
    · rw [if_neg h1, if_neg h2] at h
      simp at h

theorem Join_clean (a b : Str) (h : Join a b ≠ []) : Clean (Join a b) = Join a b := by
  unfold Join at h ⊢
  split_ifs at h ⊢ with h1 h2
  · exact absurd rfl h
  · exact Clean_idem _
  · exact Clean_idem _

theorem upd_same {β : Type} (m : Str → Option β) (k : Str) (v : Option β) : upd m k v k = v := by
  simp [upd]

theorem upd_other {β : Type} (m : Str → Option β) (k q : Str) (v : Option β) (h : q ≠ k) :
    upd m k v q = m q := by
  simp [upd, h]

theorem upd_upd {β : Type} (m : Str → Option β) (k : Str) (v w : Option β) :
    upd (upd m k v) k w = upd m k w := by
  funext q
  by_cases h : q = k <;> simp [upd, h]

theorem Copy_written (fs : FS) (dst src : Str) :
    0 ≤ (Copy fs dst src).2.1 ∧ (Copy fs dst src).2.1 ≤ src.length := by
  unfold Copy
  split <;> simp

theorem CopyN_err_iff (fs : FS) (dst src : Str) (n : Int) (hn : 0 ≤ n) :
    (CopyN fs dst src n).2.2 = none ↔ (CopyN fs dst src n).2.1 = n := by
  have hw := (Copy_written fs dst (LimitReader src n)).2
  have hl : ((LimitReader src n).length : Int) ≤ n := by
    unfold LimitReader
    rw [List.length_take]
    omega
  unfold CopyN
  revert hw
  generalize Copy fs dst (LimitReader src n) = r
  obtain ⟨fs1, written, err⟩ := r
  intro hw
  simp only at hw ⊢
  split_ifs with h1 h2
  · simp
  · simp [h1]
  · simp only [h1, iff_false]
    intro h3
    apply h2
    exact ⟨by omega, h3⟩

theorem CopyN_file (fs : FS) (dst src c : Str) (n : Int) (hn : 0 ≤ n)
    (h : fs dst = some (Node.file c)) :
    (CopyN fs dst src n).1 = upd fs dst (some (Node.file (c ++ src.take n.toNat))) ∧
    ((CopyN fs dst src n).2.2 = none ↔ n.toNat ≤ src.length) ∧
    ((CopyN fs dst src n).2.1 = n ↔ n.toNat ≤ src.length) := by
  have key : ((List.take n.toNat src).length : Int) = n ↔ n.toNat ≤ src.length := by
    rw [List.length_take]; omega
  have hiff := CopyN_err_iff fs dst src n hn
  have h1 : (CopyN fs dst src n).1 = upd fs dst (some (Node.file (c ++ src.take n.toNat))) := by
    unfold CopyN Copy LimitReader
    simp only [h]
    split_ifs <;> rfl
  have h2 : (CopyN fs dst src n).2.1 = n ↔ n.toNat ≤ src.length := by
    rw [← key]
    unfold CopyN Copy LimitReader
    simp only [h]
    split_ifs with h3 h4
    · simp only [true_iff]; exact h3
    · simp only [h3]
    · simp only [h3]
  exact ⟨h1, hiff.trans h2, h2⟩

/-! ## The `os` calls on cleaned paths -/

theorem osCreate_Join (fs fs1 : FS) (a b : Str) (h : osCreate fs (Join a b) = some fs1) :
    fs1 = upd fs (Join a b) (some (Node.file [])) := by
  unfold osCreate at h
  cases hr : resolve fs (Join a b) with
  | none => simp [hr] at h
  | some key =>
    obtain ⟨r1, -, r3⟩ := resolve_some fs _ key hr
    rw [Join_clean a b r1] at r3
    subst r3
    rw [hr] at h
    simp only at h
    split at h
    · simp at h
    · split_ifs at h
      exact (Option.some.inj h).symm

theorem validName_chain (rooted : Bool) (rev : List Str) (hg : GoodStack rooted rev)
    (hv : validName (render rooted rev.reverse)) :
    ∀ q ∈ dirChain (render rooted rev.reverse), validName q := by
  induction rev with
  | nil =>
    intro q hq
    rw [dirChain_render rooted [] hg] at hq
    simp at hq
    subst hq
    exact hv
  | cons c rev ih =>
    intro q hq
    rw [dirChain_render_cons rooted c rev hg] at hq
    rcases List.mem_append.mp hq with h | h
    · exact ih (goodStack_tail rooted c rev hg) (validName_render_tail rooted c rev hv) q h
    · rw [List.mem_singleton] at h
      subst h
      exact hv

theorem markPending_fs (outputDir : Str) (s : State) (e : Entry) :
    (markPending outputDir s e).fs = s.fs := by
  unfold markPending
  split
  · rfl
  · split_ifs <;> rfl

theorem writeEntry_create_fails (outputDir : Str) (s : State) (e : Entry)
    (hc : osCreate s.fs (Join outputDir (fileNameOf s e)) = none) :
    writeEntry outputDir s e =
      ⟨some (Err.creating (Join outputDir (fileNameOf s e))),
        { markPending outputDir s e with
          calls := (markPending outputDir s e).calls ++
            [Call.create (Join outputDir (fileNameOf s e))] }⟩ := by
  unfold writeEntry
  simp only [markPending_fs, hc]

theorem writeEntry_created (outputDir : Str) (s : State) (e : Entry) (fs1 : FS) (h0 : 0 ≤ e.Size)
    (hc : osCreate s.fs (Join outputDir (fileNameOf s e)) = some fs1) :
    writeEntry outputDir s e =
      ⟨if e.Size.toNat ≤ e.payload.length then none
        else some (Err.extracting (Join outputDir (fileNameOf s e))),
        { markPending outputDir s e with
          fs := upd s.fs (Join outputDir (fileNameOf s e))
            (some (Node.file (e.payload.take e.Size.toNat))),
          calls := (markPending outputDir s e).calls ++
            [Call.create (Join outputDir (fileNameOf s e))] }⟩ := by
  have hfs1 := osCreate_Join _ _ _ _ hc
  have hfile : fs1 (Join outputDir (fileNameOf s e)) = some (Node.file []) := by
    rw [hfs1, upd_same]
  obtain ⟨c1, c2, c3⟩ := CopyN_file fs1 (Join outputDir (fileNameOf s e)) e.payload [] e.Size h0 hfile
  unfold writeEntry
  simp only [markPending_fs, hc]
  rcases hC : CopyN fs1 (Join outputDir (fileNameOf s e)) e.payload e.Size with ⟨fs2, written, err⟩
  rw [hC] at c1 c2 c3
  simp only at c1 c2 c3
  simp only [List.nil_append] at c1
  rw [hfs1, upd_upd] at c1
  subst c1
  by_cases hlen : e.Size.toNat ≤ e.payload.length
  · have e1 := c2.mpr hlen
    have e2 := c3.mpr hlen
    simp [e1, e2, hlen]
  · have e1 : err ≠ none := fun h => hlen (c2.mp h)
    simp [e1, hlen]

/-! ## The loop body -/

theorem step_write (outputDir : Str) (nometa : Bool) (s : State) (e : Entry)
    (hid : Base e.Name ≠ Dir e.Name) (hn : 1 ≤ e.Size)
    (hk : Base e.Name = sAsset ∨ (nometa = false ∧ Base e.Name = sAssetMeta)) :
    step outputDir nometa s e = writeEntry outputDir s e := by
  unfold step
  have h1 : ¬ (Base e.Name = Dir e.Name ∨ e.Size < 1) := by
    rintro (h | h)
    · exact hid h
    · omega
  simp only [h1, if_false, hk, if_true]

theorem step_pathname (outputDir : Str) (nometa : Bool) (s : State) (e : Entry)
    (hid : Base e.Name ≠ Dir e.Name) (hn : 1 ≤ e.Size) (hk : Base e.Name = sPathname) :
    step outputDir nometa s e = resolveName outputDir s e := by
  unfold step
  have h1 : ¬ (Base e.Name = Dir e.Name ∨ e.Size < 1) := by
    rintro (h | h)
    · exact hid h
    · omega
  have h2 : ¬ (sPathname = sAsset ∨ (nometa = false ∧ sPathname = sAssetMeta)) := by
    rintro (h | ⟨-, h⟩)
    · exact absurd h (by decide)
    · exact absurd h (by decide)
  simp only [h1, if_false]
  simp only [hk, h2, if_false, if_true]

theorem step_skip (outputDir : Str) (nometa : Bool) (s : State) (e : Entry)
    (h : Base e.Name = Dir e.Name ∨ e.Size < 1) :
    step outputDir nometa s e = ⟨none, s⟩ := by
  unfold step
  simp only [h, if_true]

theorem step_other (outputDir : Str) (nometa : Bool) (s : State) (e : Entry)
    (h1 : ¬ (Base e.Name = sAsset ∨ (nometa = false ∧ Base e.Name = sAssetMeta)))
    (h2 : Base e.Name ≠ sPathname) :
    step outputDir nometa s e = ⟨none, s⟩ := by
  unfold step
  simp only [h1, h2, if_false, ite_self]

theorem extractLoop_abort (outputDir : Str) (nometa : Bool) (s : State) (e : Entry)
    (rest : List Entry) (h : (step outputDir nometa s e).err ≠ none) :
    extractLoop outputDir nometa s (e :: rest) = step outputDir nometa s e := by
  unfold extractLoop
  split
  · rename_i err heq
    rw [← heq]
  · rename_i heq
    exact absurd heq h

/-- C5 (skip rule): an entry whose size is below 1, or whose base name equals its
identifier, is passed over by the loop body: no error, and the filesystem, the
three maps and the history of filesystem calls are all unchanged, whatever the
base name and the metadata flag are. -/
theorem skip_rule (outputDir : Str) (nometa : Bool) (s : State) (e : Entry)
    (h : e.Size < 1 ∨ Base e.Name = Dir e.Name) :
    step outputDir nometa s e = ⟨none, s⟩ := by
  have h2 : Base e.Name = Dir e.Name ∨ e.Size < 1 := h.symm
  exact step_skip outputDir nometa s e h2

theorem skip_rule_witness :
    step outDir false (initState fsOut []) eEmpty = ⟨none, initState fsOut []⟩ :=
  skip_rule outDir false (initState fsOut []) eEmpty (Or.inl (by decide))

/-- C7 (size fidelity): for an asset entry, or a metadata entry when metadata is
kept, of declared size n at least 1: the step succeeds exactly when the file can
be created and the stream delivers n bytes; after a successful step the file at
the write target holds exactly the first n payload bytes, n of them, whatever
was there before; when the stream delivers fewer than n bytes the step returns
an error and the loop stops there, whatever entries follow; and whenever the
test after the copy sends the program into its error branch the copy error is
not nil. -/
theorem size_fidelity (outputDir : Str) (nometa : Bool) (s : State) (e : Entry)
    (rest : List Entry)
    (hk : Base e.Name = sAsset ∨ (nometa = false ∧ Base e.Name = sAssetMeta))
    (hid : Base e.Name ≠ Dir e.Name) (hn : 1 ≤ e.Size) :
    ((step outputDir nometa s e).err = none ↔
        (osCreate s.fs (Join outputDir (fileNameOf s e))).isSome ∧
          e.Size.toNat ≤ e.payload.length) ∧
    ((step outputDir nometa s e).err = none →
        (step outputDir nometa s e).st.fs (Join outputDir (fileNameOf s e)) =
            some (Node.file (e.payload.take e.Size.toNat)) ∧
          ((e.payload.take e.Size.toNat).length : Int) = e.Size) ∧
    (e.payload.length < e.Size.toNat →
        (step outputDir nometa s e).err ≠ none ∧
          extractLoop outputDir nometa s (e :: rest) = step outputDir nometa s e) ∧
    (∀ fs1 : FS,
        (CopyN fs1 (Join outputDir (fileNameOf s e)) e.payload e.Size).2.2 ≠ none ∨
            (CopyN fs1 (Join outputDir (fileNameOf s e)) e.payload e.Size).2.1 ≠ e.Size →
          (CopyN fs1 (Join outputDir (fileNameOf s e)) e.payload e.Size).2.2 ≠ none) := by
  have h0 : 0 ≤ e.Size := by omega
  rw [step_write outputDir nometa s e hid hn hk]
  have hiff : (writeEntry outputDir s e).err = none ↔
      (osCreate s.fs (Join outputDir (fileNameOf s e))).isSome ∧
        e.Size.toNat ≤ e.payload.length := by
    rcases hc : osCreate s.fs (Join outputDir (fileNameOf s e)) with _ | fs1
    · rw [writeEntry_create_fails outputDir s e hc]
      simp
    · rw [writeEntry_created outputDir s e fs1 h0 hc]
      by_cases hlen : e.Size.toNat ≤ e.payload.length <;> simp [hlen]
  refine ⟨hiff, ?_, ?_, ?_⟩
  · intro hok
    obtain ⟨hc, hlen⟩ := hiff.mp hok
    obtain ⟨fs1, hc⟩ := Option.isSome_iff_exists.mp hc
    rw [writeEntry_created outputDir s e fs1 h0 hc]
    refine ⟨upd_same _ _ _, ?_⟩
    rw [List.length_take]
    omega
  · intro hshort
    have herr : (writeEntry outputDir s e).err ≠ none := by
      intro hok
      have := (hiff.mp hok).2
      omega
    refine ⟨herr, ?_⟩
    have := extractLoop_abort outputDir nometa s e rest
    rw [step_write outputDir nometa s e hid hn hk] at this
    exact this herr
  · intro fs1 hbranch
    rcases hbranch with h | h
    · exact h
    · intro hnil
      exact h ((CopyN_err_iff fs1 _ e.payload e.Size h0).mp hnil)

theorem size_fidelity_witness :
    (step outDir false (initState fsOut []) eAsset2).st.fs "out/id2".toList =
        some (Node.file "DATA".toList) ∧
      (step outDir false (initState fsOut []) eShort).err ≠ none :=
  ⟨((size_fidelity outDir false (initState fsOut []) eAsset2 [] (Or.inl (by decide))
      (by decide) (by decide)).2.1 (by decide)).1,
   ((size_fidelity outDir false (initState fsOut []) eShort [ePath2] (Or.inl (by decide))
      (by decide) (by decide)).2.2.1 (by decide)).1⟩

/-! ## The pathname branch and the maps -/

theorem move_maps (s : State) (current targ : Str) :
    (move s current targ).st.pendingRenames = s.pendingRenames ∧
    (move s current targ).st.pendingMetaRenames = s.pendingMetaRenames ∧
    (move s current targ).st.nameLookup = s.nameLookup := by
  unfold move
  simp only
  split
  · exact ⟨rfl, rfl, rfl⟩
  · split <;> exact ⟨rfl, rfl, rfl⟩

theorem moveIfPending_maps (s : State) (pending : Option Str) (targ : Str) :
    (moveIfPending s pending targ).st.pendingRenames = s.pendingRenames ∧
    (moveIfPending s pending targ).st.pendingMetaRenames = s.pendingMetaRenames ∧
    (moveIfPending s pending targ).st.nameLookup = s.nameLookup := by
  unfold moveIfPending
  split
  · exact move_maps _ _ _
  · exact ⟨rfl, rfl, rfl⟩

theorem ReadFull_ok (src : Str) (n : Int) (h : n.toNat ≤ src.length) :
    ReadFull src n = Except.ok (src.take n.toNat) := by
  unfold ReadFull
  rw [if_pos h]

theorem ReadFull_short (src : Str) (n : Int) (h : ¬ n.toNat ≤ src.length) :
    ∃ err, ReadFull src n = Except.error err := by
  unfold ReadFull
  rw [if_neg h]
  split_ifs
  · exact ⟨_, rfl⟩
  · exact ⟨_, rfl⟩

/-- The pathname branch written out for a payload that can be read. -/
theorem resolveName_read (outputDir : Str) (s : State) (e : Entry)
    (hlen : e.Size.toNat ≤ e.payload.length) :
    resolveName outputDir s e =
      (match (moveIfPending
          (setName s (Dir e.Name) (TrimSpace (e.payload.take e.Size.toNat)))
          (s.pendingRenames (Dir e.Name))
          (Join outputDir (TrimSpace (e.payload.take e.Size.toNat)))).err with
      | some _ =>
        moveIfPending
          (setName s (Dir e.Name) (TrimSpace (e.payload.take e.Size.toNat)))
          (s.pendingRenames (Dir e.Name))
          (Join outputDir (TrimSpace (e.payload.take e.Size.toNat)))
      | none =>
        moveIfPending
          (moveIfPending
            (setName s (Dir e.Name) (TrimSpace (e.payload.take e.Size.toNat)))
            (s.pendingRenames (Dir e.Name))
            (Join outputDir (TrimSpace (e.payload.take e.Size.toNat)))).st
          (s.pendingMetaRenames (Dir e.Name))
          (Join outputDir (TrimSpace (e.payload.take e.Size.toNat) ++ sMeta))) := by
  unfold resolveName
  rw [ReadFull_ok _ _ hlen]
  simp only
  rw [(moveIfPending_maps _ _ _).2.1]
  rfl

theorem resolveName_maps (outputDir : Str) (s : State) (e : Entry) :
    (resolveName outputDir s e).st.pendingRenames = s.pendingRenames ∧
    (resolveName outputDir s e).st.pendingMetaRenames = s.pendingMetaRenames ∧
    (e.Size.toNat ≤ e.payload.length →
      (resolveName outputDir s e).st.nameLookup =
        upd s.nameLookup (Dir e.Name) (some (TrimSpace (e.payload.take e.Size.toNat)))) ∧
    ((resolveName outputDir s e).err = none → e.Size.toNat ≤ e.payload.length) := by
  by_cases hlen : e.Size.toNat ≤ e.payload.length
  · rw [resolveName_read outputDir s e hlen]
    obtain ⟨a1, a2, a3⟩ := moveIfPending_maps
      (setName s (Dir e.Name) (TrimSpace (e.payload.take e.Size.toNat)))
      (s.pendingRenames (Dir e.Name))
      (Join outputDir (TrimSpace (e.payload.take e.Size.toNat)))
    split
    · exact ⟨a1, a2, fun _ => a3, fun _ => hlen⟩
    · obtain ⟨b1, b2, b3⟩ := moveIfPending_maps
        (moveIfPending
            (setName s (Dir e.Name) (TrimSpace (e.payload.take e.Size.toNat)))
            (s.pendingRenames (Dir e.Name))
            (Join outputDir (TrimSpace (e.payload.take e.Size.toNat)))).st
        (s.pendingMetaRenames (Dir e.Name))
        (Join outputDir (TrimSpace (e.payload.take e.Size.toNat) ++ sMeta))
      exact ⟨b1.trans a1, b2.trans a2, fun _ => b3.trans a3, fun _ => hlen⟩
  · obtain ⟨err, hr⟩ := ReadFull_short _ _ hlen
    unfold resolveName
    rw [hr]
    exact ⟨rfl, rfl, fun h => absurd h hlen, fun h => by simp at h⟩


/-- C8, as stated, fails: after a first pathname entry has set the known name of
`id1` to `a`, a second pathname entry of `id1` with payload `b` is processed
without error and the known name of `id1` is then `b`. -/
theorem known_name_overwritten :
    (extractLoop outDir false (initState fsOut []) [ePathA]).st.nameLookup "id1".toList =
        some "a".toList ∧
      (extractLoop outDir false (initState fsOut []) [ePathA, ePathB]).err = none ∧
      (extractLoop outDir false (initState fsOut []) [ePathA, ePathB]).st.nameLookup
        "id1".toList = some "b".toList := by
  decide

/-- C8 amended (last write wins): whatever the known-name map holds, a pathname
entry whose payload can be read sets the known name of its identifier to its
own trimmed payload, also when the moves that follow fail, and changes the
known name of no other identifier. -/
theorem known_name_last_wins (outputDir : Str) (nometa : Bool) (s : State) (e : Entry)
    (hk : Base e.Name = sPathname) (hid : Base e.Name ≠ Dir e.Name) (hn : 1 ≤ e.Size)
    (hlen : e.Size.toNat ≤ e.payload.length) :
    (step outputDir nometa s e).st.nameLookup (Dir e.Name) =
        some (TrimSpace (e.payload.take e.Size.toNat)) ∧
      ∀ h, h ≠ Dir e.Name → (step outputDir nometa s e).st.nameLookup h = s.nameLookup h := by
  rw [step_pathname outputDir nometa s e hid hn hk]
  rw [(resolveName_maps outputDir s e).2.2.1 hlen]
  exact ⟨upd_same _ _ _, fun h hne => upd_other _ _ _ _ hne⟩

theorem known_name_last_wins_witness :
    (step outDir false (step outDir false (initState fsOut []) ePathA).st ePathB).st.nameLookup
      "id1".toList = some "b".toList :=
  (known_name_last_wins outDir false (step outDir false (initState fsOut []) ePathA).st ePathB
    (by decide) (by decide) (by decide) (by decide)).1



/-! ## Runs on concrete archives -/

set_option maxRecDepth 100000 in
/-- C3 at its own example: the pathname entry `Textures/Rock.png` of `id1`, then
the 1024-byte asset of `id1`, from an empty output root. The asset is written
directly under its known name, but the directory `out/Textures` is never
created on this path, so `os.Create` fails and the extraction stops with an
error; no file exists at `out/Textures/Rock.png`. The same two entries in the
other order are extracted: there `move` creates `out/Textures` first. -/
theorem name_first_nested_fails :
    (extractLoop outDir false (initState fsOut []) [ePath1, eAsset1]).err =
        some (Err.creating "out/Textures/Rock.png".toList) ∧
      (extractLoop outDir false (initState fsOut []) [ePath1, eAsset1]).st.fs
        "out/Textures/Rock.png".toList = none ∧
      (extractLoop outDir false (initState fsOut []) [ePath1, eAsset1]).st.fs
        "out/Textures".toList = none ∧
      (extractLoop outDir false (initState fsOut []) [ePath1, eAsset1]).st.calls =
        [Call.create "out/Textures/Rock.png".toList] ∧
      (extractLoop outDir false (initState fsOut []) [eAsset1, ePath1]).err = none ∧
      (extractLoop outDir false (initState fsOut []) [eAsset1, ePath1]).st.fs
        "out/Textures/Rock.png".toList = some (Node.file (List.replicate 1024 'x')) := by
  decide

/-- C10, as stated, fails: with the pathname payload `../evil.txt` the asset of
`id3` is moved to `evil.txt`, next to the output root `out` and not inside it;
when the pathname entry comes first the file is created there directly. -/
theorem escapes_output_root :
    (extractLoop outDir false (initState fsOut []) [eAsset3, ePathUp3]).err = none ∧
      (extractLoop outDir false (initState fsOut []) [eAsset3, ePathUp3]).st.calls =
        [Call.create "out/id3".toList, Call.mkdirAll ".".toList,
          Call.rename "out/id3".toList "evil.txt".toList] ∧
      (extractLoop outDir false (initState fsOut []) [eAsset3, ePathUp3]).st.fs
        "evil.txt".toList = some (Node.file "DATA".toList) ∧
      (extractLoop outDir false (initState fsOut []) [ePathUp3, eAsset3]).st.calls =
        [Call.create "evil.txt".toList] ∧
      ¬ inside outDir "evil.txt".toList := by
  decide

/-- White space is trimmed as `strings.TrimSpace` trims it: an encoded no-break
space (C2 A0) or line separator (E2 80 A8) goes, a lone byte A0 or 85 stays. -/
theorem TrimSpace_utf8 :
    TrimSpace (Char.ofNat 0xC2 :: Char.ofNat 0xA0 :: "a b".toList ++
      [Char.ofNat 0xE2, Char.ofNat 0x80, Char.ofNat 0xA8, '\n']) = "a b".toList ∧
    TrimSpace [Char.ofNat 0xA0, 'a', Char.ofNat 0x85] = [Char.ofNat 0xA0, 'a', Char.ofNat 0x85] ∧
    TrimSpace [' ', Char.ofNat 0xC2, 'a', Char.ofNat 0xA0, Char.ofNat 0xC2, '\t'] =
      [Char.ofNat 0xC2, 'a', Char.ofNat 0xA0, Char.ofNat 0xC2] := by
  decide

/-- A pathname payload that starts with an encoded no-break space is trimmed to
`../evil.txt`: the entry is not safe and the asset is moved out of the output
root. -/
theorem nbsp_payload_escapes :
    TrimSpace (ePathNbsp3.payload.take ePathNbsp3.Size.toNat) = "../evil.txt".toList ∧
      ¬ safeEntry ePathNbsp3 ∧
      (extractLoop outDir false (initState fsOut []) [eAsset3, ePathNbsp3]).st.calls =
        [Call.create "out/id3".toList, Call.mkdirAll ".".toList,
          Call.rename "out/id3".toList "evil.txt".toList] := by
  refine ⟨by decide, ?_, by decide⟩
  intro h
  exact absurd ((h (by decide) (by decide)).2 (by decide)) (by decide)

set_option maxRecDepth 100000 in
/-- A final name of 256 bytes cannot be created: asset first, the file is
written under the identifier and the move fails, leaving it there; pathname
first, the direct write fails and nothing is written. -/
theorem long_name_fails :
    ¬ validName (Join outDir longName) ∧
      (extractLoop outDir false (initState fsOut []) [eAsset2, ePathLong2]).err =
        some (Err.moving "out/id2".toList (Join outDir longName)) ∧
      (extractLoop outDir false (initState fsOut []) [eAsset2, ePathLong2]).st.fs
        "out/id2".toList = some (Node.file "DATA".toList) ∧
      (extractLoop outDir false (initState fsOut []) [ePathLong2, eAsset2]).err =
        some (Err.creating (Join outDir longName)) ∧
      (extractLoop outDir false (initState fsOut []) [ePathLong2, eAsset2]).st.fs
        "out/id2".toList = none := by
  decide

/-- The call `os.MkdirAll` on the spelling `a/../b` makes `a` on its way to
`b`. -/
theorem mkdirAll_uncleaned :
    (osMkdirAll fsOut "a/../b".toList).map (fun fs => (fs "a".toList, fs "b".toList)) =
      some (some Node.dir, some Node.dir) := by
  decide

/-- C9, as stated, fails: for the input path `pkg`, whose file name has no
extension, the output directory is `.` and not `pkg`; for `dir/.hidden`, whose
file name starts with its only dot, it is `dir`. -/
theorem default_output_dir_exceptions :
    outputDirOf ⟨["pkg".toList], none, false⟩ "pkg".toList = ".".toList ∧
      outputDirOf ⟨["dir/.hidden".toList], none, false⟩ "dir/.hidden".toList = "dir".toList := by
  decide


/-! ## Containment of the filesystem calls -/

theorem markPending_nameLookup (outputDir : Str) (s : State) (e : Entry) :
    (markPending outputDir s e).nameLookup = s.nameLookup := by
  unfold markPending
  split
  · rfl
  · split_ifs <;> rfl

theorem markPending_calls (outputDir : Str) (s : State) (e : Entry) :
    (markPending outputDir s e).calls = s.calls := by
  unfold markPending
  split
  · rfl
  · split_ifs <;> rfl

theorem writeEntry_nameLookup_calls (outputDir : Str) (s : State) (e : Entry) (h0 : 0 ≤ e.Size) :
    (writeEntry outputDir s e).st.nameLookup = s.nameLookup ∧
      (writeEntry outputDir s e).st.calls =
        s.calls ++ [Call.create (Join outputDir (fileNameOf s e))] := by
  rcases hc : osCreate s.fs (Join outputDir (fileNameOf s e)) with _ | fs1
  · rw [writeEntry_create_fails outputDir s e hc]
    exact ⟨markPending_nameLookup _ _ _, by simp only [markPending_calls]⟩
  · rw [writeEntry_created outputDir s e fs1 h0 hc]
    exact ⟨markPending_nameLookup _ _ _, by simp only [markPending_calls]⟩

theorem move_calls (s : State) (current targ : Str) :
    ∀ c ∈ (move s current targ).st.calls,
      c ∈ s.calls ∨ c = Call.mkdirAll (Dir targ) ∨ c = Call.rename current targ := by
  intro c hc
  unfold move at hc
  simp only at hc
  split at hc
  · simp only [List.mem_append, List.mem_singleton] at hc
    tauto
  · split at hc
    · simp only [List.mem_append, List.mem_singleton] at hc
      tauto
    · simp only [List.mem_append, List.mem_singleton] at hc
      tauto

theorem moveIfPending_calls (s : State) (pending : Option Str) (targ : Str) :
    ∀ c ∈ (moveIfPending s pending targ).st.calls,
      c ∈ s.calls ∨ c = Call.mkdirAll (Dir targ) ∨ ∃ current, c = Call.rename current targ := by
  intro c hc
  unfold moveIfPending at hc
  split at hc
  · rename_i current
    rcases move_calls s current targ c hc with h | h | h
    · exact Or.inl h
    · exact Or.inr (Or.inl h)
    · exact Or.inr (Or.inr ⟨current, h⟩)
  · exact Or.inl hc

theorem resolveName_calls (outputDir : Str) (s : State) (e : Entry) :
    ∀ c ∈ (resolveName outputDir s e).st.calls,
      c ∈ s.calls ∨ ∃ t, (t = Join outputDir (TrimSpace (e.payload.take e.Size.toNat)) ∨
          t = Join outputDir (TrimSpace (e.payload.take e.Size.toNat) ++ sMeta)) ∧
        (c = Call.mkdirAll (Dir t) ∨ ∃ current, c = Call.rename current t) := by
  intro c hc
  by_cases hlen : e.Size.toNat ≤ e.payload.length
  · rw [resolveName_read outputDir s e hlen] at hc
    have first := moveIfPending_calls (setName s (Dir e.Name) (TrimSpace (e.payload.take e.Size.toNat)))
      (s.pendingRenames (Dir e.Name)) (Join outputDir (TrimSpace (e.payload.take e.Size.toNat)))
    split at hc
    · rcases first c hc with h | h
      · exact Or.inl h
      · exact Or.inr ⟨_, Or.inl rfl, h⟩
    · rcases moveIfPending_calls _ _ _ c hc with h | h
      · rcases first c h with h | h
        · exact Or.inl h
        · exact Or.inr ⟨_, Or.inl rfl, h⟩
      · exact Or.inr ⟨_, Or.inr rfl, h⟩
  · obtain ⟨err, hr⟩ := ReadFull_short _ _ hlen
    unfold resolveName at hc
    rw [hr] at hc
    exact Or.inl hc

/-- One round of the loop keeps the names on record safe and the calls inside
the output root. -/
theorem step_contained (outputDir : Str) (nometa : Bool) (s : State) (e : Entry)
    (hout : outputDir ≠ []) (he : safeEntry e)
    (hnames : ∀ h v, s.nameLookup h = some v → safeName v)
    (hcalls : ∀ c ∈ s.calls, goodCall outputDir c) :
    (∀ h v, (step outputDir nometa s e).st.nameLookup h = some v → safeName v) ∧
      ∀ c ∈ (step outputDir nometa s e).st.calls, goodCall outputDir c := by
  by_cases hskip : Base e.Name = Dir e.Name ∨ e.Size < 1
  · rw [step_skip outputDir nometa s e hskip]
    exact ⟨hnames, hcalls⟩
  · have hid : Base e.Name ≠ Dir e.Name := fun h => hskip (Or.inl h)
    have hn : 1 ≤ e.Size := by
      by_contra h
      exact hskip (Or.inr (by omega))
    obtain ⟨hsafeId, hsafePath⟩ := he hid hn
    by_cases hk : Base e.Name = sAsset ∨ (nometa = false ∧ Base e.Name = sAssetMeta)
    · rw [step_write outputDir nometa s e hid hn hk]
      obtain ⟨h1, h2⟩ := writeEntry_nameLookup_calls outputDir s e (by omega)
      rw [h1, h2]
      refine ⟨hnames, ?_⟩
      intro c hc
      rcases List.mem_append.mp hc with hc | hc
      · exact hcalls c hc
      · rw [List.mem_singleton.mp hc]
        show inside outputDir (Join outputDir (fileNameOf s e))
        apply inside_Join outputDir _ hout
        have hbase : safeName (match s.nameLookup (Dir e.Name) with
            | some saved => saved
            | none => Dir e.Name) := by
          split
          · rename_i saved hs
            exact hnames _ _ hs
          · exact hsafeId
        unfold fileNameOf
        simp only
        split_ifs
        · exact safeName_meta _ hbase.1
        · exact hbase
    · by_cases hp : Base e.Name = sPathname
      · rw [step_pathname outputDir nometa s e hid hn hp]
        have hp2 := hsafePath hp
        obtain ⟨-, -, m3, m4⟩ := resolveName_maps outputDir s e
        constructor
        · intro h v hv
          by_cases hlen : e.Size.toNat ≤ e.payload.length
          · rw [m3 hlen] at hv
            by_cases hh : h = Dir e.Name
            · rw [hh, upd_same] at hv
              rw [← Option.some.inj hv]
              exact hp2
            · rw [upd_other _ _ _ _ hh] at hv
              exact hnames h v hv
          · obtain ⟨err, hr⟩ := ReadFull_short _ _ hlen
            unfold resolveName at hv
            rw [hr] at hv
            exact hnames h v hv
        · intro c hc
          rcases resolveName_calls outputDir s e c hc with h | ⟨t, ht, hct⟩
          · exact hcalls c h
          · have hin : inside outputDir t := by
              rcases ht with ht | ht
              · rw [ht]; exact inside_Join outputDir _ hout hp2
              · rw [ht]; exact inside_Join outputDir _ hout (safeName_meta _ hp2.1)
            rcases hct with hct | ⟨current, hct⟩
            · rw [hct]; exact ⟨t, hin, rfl⟩
            · rw [hct]; exact hin
      · rw [step_other outputDir nometa s e hk hp]
        exact ⟨hnames, hcalls⟩

theorem extractLoop_contained (outputDir : Str) (nometa : Bool) (entries : List Entry)
    (s : State) (hout : outputDir ≠ []) (he : ∀ e ∈ entries, safeEntry e)
    (hnames : ∀ h v, s.nameLookup h = some v → safeName v)
    (hcalls : ∀ c ∈ s.calls, goodCall outputDir c) :
    ∀ c ∈ (extractLoop outputDir nometa s entries).st.calls, goodCall outputDir c := by
  induction entries generalizing s with
  | nil => exact hcalls
  | cons e es ih =>
    obtain ⟨h1, h2⟩ := step_contained outputDir nometa s e hout
      (he e (List.mem_cons_self _ _)) hnames hcalls
    unfold extractLoop
    split
    · exact h2
    · exact ih _ (fun x hx => he x (List.mem_cons_of_mem _ hx)) h1 h2

/-- C10 amended: for a non-empty output root and an archive in which every
entry the loop acts on has an identifier, and every pathname entry a trimmed
payload, that has no `..` element and at least one element other than the empty
one and `.`, every path at which a file is created and every target of a move
lies inside the output root, and directories are made only for the parent of
such a target. Absolute payloads are included: the join makes them relative to
the output root. The same holds round by round, whatever the filesystem holds:
from any state whose known names are safe and whose calls so far are inside the
output root, a round on such an entry keeps the known names safe and the calls
inside the output root. -/
theorem destinations_inside (outputDir : Str) (nometa : Bool) (fs : FS) (entries : List Entry)
    (hout : outputDir ≠ []) (he : ∀ e ∈ entries, safeEntry e) :
    (∀ c ∈ (extractLoop outputDir nometa (initState fs []) entries).st.calls,
      goodCall outputDir c) ∧
    (∀ (s : State) (e : Entry), e ∈ entries →
      (∀ h v, s.nameLookup h = some v → safeName v) →
      (∀ c ∈ s.calls, goodCall outputDir c) →
      (∀ h v, (step outputDir nometa s e).st.nameLookup h = some v → safeName v) ∧
        ∀ c ∈ (step outputDir nometa s e).st.calls, goodCall outputDir c) :=
  ⟨extractLoop_contained outputDir nometa entries (initState fs []) hout he
    (fun _ _ h => by simp [initState] at h) (fun _ h => by simp [initState] at h),
    fun s e hin hnames hcalls => step_contained outputDir nometa s e hout (he e hin) hnames hcalls⟩

theorem safeEntry_asset2 : safeEntry eAsset2 :=
  fun _ _ => ⟨by decide, fun h => absurd h (by decide)⟩

theorem safeEntry_path2 : safeEntry ePath2 :=
  fun _ _ => ⟨by decide, fun _ => by decide⟩

theorem destinations_inside_witness :
    goodCall outDir (Call.rename "out/id2".toList "out/Scripts/Move.cs".toList) :=
  (destinations_inside outDir false fsOut [eAsset2, ePath2] (by decide)
    (by
      intro e he
      rcases List.mem_cons.mp he with h | h
      · rw [h]; exact safeEntry_asset2
      · rw [List.mem_singleton.mp h]; exact safeEntry_path2)).1
    (Call.rename "out/id2".toList "out/Scripts/Move.cs".toList) (by decide)


/-! ## Base names and metadata sidecars -/

theorem cleanStep_cases (rooted : Bool) (rev : List Str) (c : Str) :
    cleanStep rooted rev c = rev ∨ cleanStep rooted rev c = rev.tail ∨
      cleanStep rooted rev c = dotdot :: rev ∨ cleanStep rooted rev c = c :: rev := by
  by_cases h1 : c = [] ∨ c = ['.']
  · exact Or.inl (cleanStep_skip rooted rev c h1)
  · by_cases h2 : c = dotdot
    · subst h2
      rw [cleanStep_dotdot]
      cases rev with
      | nil =>
        cases rooted with
        | true => exact Or.inl rfl
        | false => exact Or.inr (Or.inr (Or.inl rfl))
      | cons top rest =>
        simp only
        by_cases ht : top = dotdot
        · rw [if_pos ht]
          cases rooted with
          | true => exact Or.inl rfl
          | false => exact Or.inr (Or.inr (Or.inl rfl))
        · rw [if_neg ht]
          exact Or.inr (Or.inl rfl)
    · exact Or.inr (Or.inr (Or.inr (cleanStep_push rooted rev c
        (fun e => h1 (Or.inl e)) (fun e => h1 (Or.inr e)) h2)))

theorem cleanStack_snoc (x : Str) (init : List Str) (last : Str)
    (h : splitSlash x = init ++ [last]) :
    cleanStack x =
      cleanStep (isRooted x) (init.foldl (cleanStep (isRooted x)) []) last := by
  unfold cleanStack
  rw [h, List.foldl_append]
  rfl

theorem cleanStack_meta_ne (x : Str) : cleanStack x ≠ cleanStack (x ++ sMeta) := by
  by_cases hx : x = []
  · subst hx; decide
  · obtain ⟨init, last, h1, h2⟩ := splitSlash_append_noslash x sMeta (by decide)
    have hlen : (last ++ sMeta).length = last.length + 5 := by
      rw [List.length_append]; rfl
    have hne : ∀ t : Str, t.length < 5 → last ++ sMeta ≠ t := by
      intro t ht e
      rw [e] at hlen
      omega
    rw [cleanStack_snoc x init last h1, cleanStack_snoc (x ++ sMeta) init (last ++ sMeta) h2,
      isRooted_append x sMeta hx]
    generalize init.foldl (cleanStep (isRooted x)) [] = S
    rw [cleanStep_push _ S (last ++ sMeta) (hne [] (by decide)) (hne ['.'] (by decide))
      (hne dotdot (by decide))]
    intro e
    rcases cleanStep_cases (isRooted x) S last with h | h | h | h
    · rw [h] at e
      have := congrArg List.length e
      simp at this
    · rw [h] at e
      have := congrArg List.length e
      simp at this
    · rw [h] at e
      exact hne dotdot (by decide) (List.cons.inj e).1.symm
    · rw [h] at e
      have := congrArg List.length (List.cons.inj e).1
      rw [hlen] at this
      omega

theorem Clean_meta_ne (x : Str) : Clean x ≠ Clean (x ++ sMeta) := by
  intro e
  have := congrArg cleanStack e
  rw [cleanStack_Clean, cleanStack_Clean] at this
  exact cleanStack_meta_ne x this

/-- The path of a base name is never the path of its metadata sidecar. -/
theorem Join_meta_ne (out b : Str) : Join out b ≠ Join out (b ++ sMeta) := by
  by_cases hout : out = []
  · subst hout
    unfold Join
    by_cases hb : b = []
    · subst hb; decide
    · have hb2 : b ++ sMeta ≠ [] := by simp [hb]
      simp only [hb, hb2, and_false, and_true, if_false, if_true, true_and]
      exact Clean_meta_ne b
  · rw [Join_eq out b hout, Join_eq out (b ++ sMeta) hout]
    have := Clean_meta_ne (out ++ '/' :: b)
    rwa [List.append_assoc, List.cons_append] at this

/-! ## Runs without metadata -/

theorem step_nometa_meta (outputDir : Str) (s : State) (e : Entry)
    (h : Base e.Name = sAssetMeta) : step outputDir true s e = ⟨none, s⟩ := by
  apply step_other
  · rw [h]
    rintro (h1 | ⟨h1, -⟩)
    · exact absurd h1 (by decide)
    · exact absurd h1 (by decide)
  · rw [h]
    decide

theorem markPending_pendingMeta (outputDir : Str) (s : State) (e : Entry)
    (h : Base e.Name ≠ sAssetMeta) :
    (markPending outputDir s e).pendingMetaRenames = s.pendingMetaRenames := by
  unfold markPending
  split
  · rfl
  · rw [if_neg h]

theorem writeEntry_pendingMeta (outputDir : Str) (s : State) (e : Entry) (h0 : 0 ≤ e.Size)
    (h : Base e.Name ≠ sAssetMeta) :
    (writeEntry outputDir s e).st.pendingMetaRenames = s.pendingMetaRenames := by
  rcases hc : osCreate s.fs (Join outputDir (fileNameOf s e)) with _ | fs1
  · rw [writeEntry_create_fails outputDir s e hc]
    exact markPending_pendingMeta outputDir s e h
  · rw [writeEntry_created outputDir s e fs1 h0 hc]
    exact markPending_pendingMeta outputDir s e h

/-- The three kinds of round of the loop body. -/
theorem step_kinds (outputDir : Str) (nometa : Bool) (s : State) (e : Entry) :
    step outputDir nometa s e = ⟨none, s⟩ ∨
    (1 ≤ e.Size ∧ (Base e.Name = sAsset ∨ (nometa = false ∧ Base e.Name = sAssetMeta)) ∧
      step outputDir nometa s e = writeEntry outputDir s e) ∨
    (1 ≤ e.Size ∧ Base e.Name = sPathname ∧
      step outputDir nometa s e = resolveName outputDir s e) := by
  by_cases hskip : Base e.Name = Dir e.Name ∨ e.Size < 1
  · exact Or.inl (step_skip outputDir nometa s e hskip)
  · have hid : Base e.Name ≠ Dir e.Name := fun h => hskip (Or.inl h)
    have hn : 1 ≤ e.Size := by
      by_contra h
      exact hskip (Or.inr (by omega))
    by_cases hk : Base e.Name = sAsset ∨ (nometa = false ∧ Base e.Name = sAssetMeta)
    · exact Or.inr (Or.inl ⟨hn, hk, step_write outputDir nometa s e hid hn hk⟩)
    · by_cases hp : Base e.Name = sPathname
      · exact Or.inr (Or.inr ⟨hn, hp, step_pathname outputDir nometa s e hid hn hp⟩)
      · exact Or.inl (step_other outputDir nometa s e hk hp)

theorem step_nometa_pendingMeta (outputDir : Str) (s : State) (e : Entry) :
    (step outputDir true s e).st.pendingMetaRenames = s.pendingMetaRenames := by
  rcases step_kinds outputDir true s e with h | ⟨hn, hk, h⟩ | ⟨hn, hk, h⟩
  · rw [h]
  · rw [h]
    have hb : Base e.Name = sAsset := by
      rcases hk with hk | ⟨hk, -⟩
      · exact hk
      · exact absurd hk (by decide)
    exact writeEntry_pendingMeta outputDir s e (by omega) (by rw [hb]; decide)
  · rw [h]
    exact (resolveName_maps outputDir s e).2.1

theorem extractLoop_invariant (outputDir : Str) (nometa : Bool) (P : State → Prop)
    (hstep : ∀ s e, P s → P (step outputDir nometa s e).st) (entries : List Entry) (s : State)
    (h : P s) : P (extractLoop outputDir nometa s entries).st := by
  induction entries generalizing s with
  | nil => exact h
  | cons e es ih =>
    unfold extractLoop
    split
    · exact hstep s e h
    · exact ih _ (hstep s e h)

theorem extractLoop_drop_meta (outputDir : Str) (entries : List Entry) (s : State) :
    extractLoop outputDir true s entries =
      extractLoop outputDir true s (entries.filter (fun e => !isMetaEntry e)) := by
  induction entries generalizing s with
  | nil => rfl
  | cons e es ih =>
    by_cases hm : Base e.Name = sAssetMeta
    · have h1 : isMetaEntry e = true := by simp [isMetaEntry, hm]
      rw [List.filter_cons]
      simp only [h1, Bool.not_true, Bool.false_eq_true, if_false]
      rw [extractLoop, step_nometa_meta outputDir s e hm]
      exact ih s
    · have h1 : isMetaEntry e = false := by simp [isMetaEntry, hm]
      rw [List.filter_cons]
      simp only [h1, Bool.not_false, if_true]
      rw [extractLoop, extractLoop]
      split
      · rfl
      · exact ih _

theorem resolveName_no_meta_pending (outputDir : Str) (s : State) (e : Entry)
    (hlen : e.Size.toNat ≤ e.payload.length) (hpm : s.pendingMetaRenames (Dir e.Name) = none) :
    resolveName outputDir s e =
      moveIfPending (setName s (Dir e.Name) (TrimSpace (e.payload.take e.Size.toNat)))
        (s.pendingRenames (Dir e.Name))
        (Join outputDir (TrimSpace (e.payload.take e.Size.toNat))) := by
  rw [resolveName_read outputDir s e hlen, hpm]
  generalize moveIfPending (setName s (Dir e.Name) (TrimSpace (e.payload.take e.Size.toNat)))
    (s.pendingRenames (Dir e.Name))
    (Join outputDir (TrimSpace (e.payload.take e.Size.toNat))) = o1
  split
  · rfl
  · rename_i heq
    obtain ⟨err, st⟩ := o1
    simp only at heq
    subst heq
    rfl

/-- With metadata suppressed and no pending metadata path on record for the
identifier, a round of the loop puts files only at the path of the base name of
the identifier, which is never the sidecar path of that base name. -/
theorem step_nometa_targets (outputDir : Str) (s : State) (e : Entry)
    (hpm : s.pendingMetaRenames (Dir e.Name) = none) :
    ∀ c ∈ (step outputDir true s e).st.calls, c ∈ s.calls ∨
      ∀ t ∈ targetsOf c, ∃ b,
        (b = Dir e.Name ∨ (step outputDir true s e).st.nameLookup (Dir e.Name) = some b) ∧
          t = Join outputDir b ∧ t ≠ Join outputDir (b ++ sMeta) := by
  intro c hc
  rcases step_kinds outputDir true s e with h | ⟨hn, hk, h⟩ | ⟨hn, hk, h⟩
  · rw [h] at hc
    exact Or.inl hc
  · have hb : Base e.Name = sAsset := by
      rcases hk with hk | ⟨hk, -⟩
      · exact hk
      · exact absurd hk (by decide)
    have hnm : Base e.Name ≠ sAssetMeta := by rw [hb]; decide
    rw [h] at hc ⊢
    obtain ⟨h1, h2⟩ := writeEntry_nameLookup_calls outputDir s e (by omega)
    rw [h2] at hc
    rw [h1]
    rcases List.mem_append.mp hc with hc | hc
    · exact Or.inl hc
    · right
      rw [List.mem_singleton.mp hc]
      intro t ht
      rw [show targetsOf (Call.create (Join outputDir (fileNameOf s e))) =
        [Join outputDir (fileNameOf s e)] from rfl, List.mem_singleton] at ht
      refine ⟨fileNameOf s e, ?_, ht, by rw [ht]; exact Join_meta_ne _ _⟩
      unfold fileNameOf
      simp only [hnm, if_false]
      split
      · rename_i saved hs
        exact Or.inr hs
      · exact Or.inl rfl
  · rw [h] at hc ⊢
    by_cases hlen : e.Size.toNat ≤ e.payload.length
    · have hname := (resolveName_maps outputDir s e).2.2.1 hlen
      rw [resolveName_no_meta_pending outputDir s e hlen hpm] at hc
      rcases moveIfPending_calls _ _ _ c hc with hc | hc | ⟨current, hc⟩
      · exact Or.inl hc
      · right
        rw [hc]
        intro t ht
        simp [targetsOf] at ht
      · right
        rw [hc]
        intro t ht
        rw [show targetsOf (Call.rename current
          (Join outputDir (TrimSpace (e.payload.take e.Size.toNat)))) =
          [Join outputDir (TrimSpace (e.payload.take e.Size.toNat))] from rfl,
          List.mem_singleton] at ht
        refine ⟨TrimSpace (e.payload.take e.Size.toNat), Or.inr ?_, ht,
          by rw [ht]; exact Join_meta_ne _ _⟩
        rw [hname, upd_same]
    · obtain ⟨err, hr⟩ := ReadFull_short _ _ hlen
      unfold resolveName at hc
      rw [hr] at hc
      exact Or.inl hc

/-- C6 (meta suppression): with `--nometa` set, (1) the loop body passes over
every `asset.meta` entry: no error, and the filesystem, the three maps and the
call history are unchanged; (2) the run on an entry sequence equals, in result
and final state, the run on the sequence without its `asset.meta` entries;
(3) the pending meta-rename map is empty after every initial part of the run;
(4) in a state without pending metadata paths, every path at which a round
creates a file or to which it moves one is the path of the base name of the
identifier (the identifier or its known name) and differs from the sidecar
path, base name plus `.meta`. -/
theorem meta_suppression (outputDir : Str) (fs : FS) (entries : List Entry) :
    (∀ s e, Base e.Name = sAssetMeta → step outputDir true s e = ⟨none, s⟩) ∧
    (∀ s, extractLoop outputDir true s entries =
      extractLoop outputDir true s (entries.filter (fun e => !isMetaEntry e))) ∧
    (∀ k, (extractLoop outputDir true (initState fs []) (entries.take k)).st.pendingMetaRenames =
      fun _ => none) ∧
    (∀ s e, s.pendingMetaRenames = (fun _ => none) →
      ∀ c ∈ (step outputDir true s e).st.calls, c ∈ s.calls ∨
        ∀ t ∈ targetsOf c, ∃ b,
          (b = Dir e.Name ∨ (step outputDir true s e).st.nameLookup (Dir e.Name) = some b) ∧
            t = Join outputDir b ∧ t ≠ Join outputDir (b ++ sMeta)) := by
  refine ⟨fun s e h => step_nometa_meta outputDir s e h,
    fun s => extractLoop_drop_meta outputDir entries s, ?_, ?_⟩
  · intro k
    apply extractLoop_invariant outputDir true (fun s => s.pendingMetaRenames = fun _ => none)
    · intro s e h
      show (step outputDir true s e).st.pendingMetaRenames = fun _ => none
      rw [step_nometa_pendingMeta]
      exact h
    · rfl
  · intro s e h
    exact step_nometa_targets outputDir s e (by rw [h])

theorem meta_suppression_witness :
    step outDir true (initState fsOut []) eMeta2 = ⟨none, initState fsOut []⟩ :=
  (meta_suppression outDir fsOut [eMeta2]).1 (initState fsOut []) eMeta2 (by decide)


/-! ## Successful rounds, written out -/

theorem extScan_found (y rest acc : Str) (hy : ∀ c ∈ y, c ≠ '/' ∧ c ≠ '.') :
    extScan (y ++ '.' :: rest) acc = '.' :: (y.reverse ++ acc) := by
  induction y generalizing acc with
  | nil => simp [extScan]
  | cons c y ih =>
    obtain ⟨c1, c2⟩ := hy c (List.mem_cons_self _ _)
    rw [List.cons_append, extScan, if_neg c1, if_neg c2,
      ih _ (fun x hx => hy x (List.mem_cons_of_mem _ hx))]
    simp

theorem Ext_found (front ext : Str) (h1 : '/' ∉ ext) (h2 : '.' ∉ ext) :
    Ext (front ++ '.' :: ext) = '.' :: ext := by
  unfold Ext
  rw [List.reverse_append, List.reverse_cons, List.append_assoc, List.singleton_append,
    extScan_found]
  · simp
  · intro c hc
    have hc2 : c ∈ ext := List.mem_reverse.mp hc
    exact ⟨fun e => h1 (e ▸ hc2), fun e => h2 (e ▸ hc2)⟩

theorem TrimSuffix_append (x suffix : Str) : TrimSuffix (x ++ suffix) suffix = x := by
  unfold TrimSuffix HasSuffix
  simp

theorem TrimSuffix_nil (x : Str) : TrimSuffix x [] = x := by
  have := TrimSuffix_append x []
  simpa using this

theorem Base_append (d w : Str) (hd : d = [] ∨ d.getLast? = some '/') (hw : '/' ∉ w)
    (hne : w ≠ []) : Base (d ++ w) = w := by
  obtain ⟨a, t, hat⟩ : ∃ a t, w.reverse = a :: t := by
    cases hr : w.reverse with
    | nil => exact absurd (List.reverse_eq_nil_iff.mp hr) hne
    | cons a t => exact ⟨a, t, rfl⟩
  have ha : a ≠ '/' := by
    intro e
    apply hw
    have : a ∈ w.reverse := by rw [hat]; exact List.mem_cons_self _ _
    exact e ▸ List.mem_reverse.mp this
  have hdrop : ((d ++ w).reverse.dropWhile (fun c => c = '/')) = (d ++ w).reverse := by
    rw [List.reverse_append, hat, List.cons_append, List.dropWhile_cons]
    simp [ha]
  unfold Base
  rw [if_neg (by simp [hne])]
  simp only
  rw [hdrop, List.reverse_reverse, lastElem_append d w hd hw, if_neg hne]

/-! ## `unpack` around the loop -/

theorem move_calls_ext (s : State) (current targ : Str) :
    ∃ new, (move s current targ).st.calls = s.calls ++ new := by
  unfold move
  simp only
  split
  · exact ⟨_, rfl⟩
  · split
    · exact ⟨_, List.append_assoc _ _ _⟩
    · exact ⟨_, List.append_assoc _ _ _⟩

theorem moveIfPending_calls_ext (s : State) (pending : Option Str) (targ : Str) :
    ∃ new, (moveIfPending s pending targ).st.calls = s.calls ++ new := by
  unfold moveIfPending
  split
  · exact move_calls_ext _ _ _
  · exact ⟨[], by simp⟩

theorem resolveName_calls_ext (outputDir : Str) (s : State) (e : Entry) :
    ∃ new, (resolveName outputDir s e).st.calls = s.calls ++ new := by
  by_cases hlen : e.Size.toNat ≤ e.payload.length
  · rw [resolveName_read outputDir s e hlen]
    obtain ⟨n1, h1⟩ := moveIfPending_calls_ext
      (setName s (Dir e.Name) (TrimSpace (e.payload.take e.Size.toNat)))
      (s.pendingRenames (Dir e.Name)) (Join outputDir (TrimSpace (e.payload.take e.Size.toNat)))
    split
    · exact ⟨n1, h1⟩
    · obtain ⟨n2, h2⟩ := moveIfPending_calls_ext
        (moveIfPending (setName s (Dir e.Name) (TrimSpace (e.payload.take e.Size.toNat)))
          (s.pendingRenames (Dir e.Name))
          (Join outputDir (TrimSpace (e.payload.take e.Size.toNat)))).st
        (s.pendingMetaRenames (Dir e.Name))
        (Join outputDir (TrimSpace (e.payload.take e.Size.toNat) ++ sMeta))
      refine ⟨n1 ++ n2, ?_⟩
      rw [h2, h1]
      exact List.append_assoc _ _ _
  · obtain ⟨err, hr⟩ := ReadFull_short _ _ hlen
    unfold resolveName
    rw [hr]
    exact ⟨[], by simp⟩

theorem step_calls_ext (outputDir : Str) (nometa : Bool) (s : State) (e : Entry) :
    ∃ new, (step outputDir nometa s e).st.calls = s.calls ++ new := by
  rcases step_kinds outputDir nometa s e with h | ⟨hn, -, h⟩ | ⟨-, -, h⟩
  · rw [h]
    exact ⟨[], by simp⟩
  · rw [h]
    exact ⟨_, (writeEntry_nameLookup_calls outputDir s e (by omega)).2⟩
  · rw [h]
    exact resolveName_calls_ext outputDir s e

theorem extractLoop_calls_ext (outputDir : Str) (nometa : Bool) (entries : List Entry)
    (s : State) : ∃ new, (extractLoop outputDir nometa s entries).st.calls = s.calls ++ new := by
  induction entries generalizing s with
  | nil => exact ⟨[], by simp [extractLoop]⟩
  | cons e es ih =>
    obtain ⟨n1, h1⟩ := step_calls_ext outputDir nometa s e
    unfold extractLoop
    split
    · exact ⟨n1, h1⟩
    · obtain ⟨n2, h2⟩ := ih (step outputDir nometa s e).st
      refine ⟨n1 ++ n2, ?_⟩
      rw [h2, h1]
      exact List.append_assoc _ _ _

/-- With an archive that opens, unzips and ends cleanly, and an output directory
that can be made, `unpack` is the loop run on the entries. -/
theorem unpack_runs_loop (c : Context) (openFile : Str → Option Archive) (fs fs1 : FS)
    (load : Str) (rest : List Str) (ar : Archive) (hargs : c.args = load :: rest)
    (hopen : openFile load = some ar) (hgz : ar.gzipOk = true)
    (hmk : osMkdirAll fs (outputDirOf c load) = some fs1) (hend : ar.endsClean = true) :
    unpack c openFile fs =
      extractLoop (outputDirOf c load) c.nometa
        (initState fs1 [Call.mkdirAll (outputDirOf c load)]) ar.entries := by
  unfold unpack
  simp only [hargs, hopen, hgz, hmk, hend, Bool.true_eq_false, if_false, if_true]
  split <;> rfl

/-- The first filesystem call of `unpack` makes the directory `outputDirOf`. -/
theorem unpack_first_call (c : Context) (openFile : Str → Option Archive) (fs : FS)
    (load : Str) (rest : List Str) (ar : Archive) (hargs : c.args = load :: rest)
    (hopen : openFile load = some ar) (hgz : ar.gzipOk = true) :
    (unpack c openFile fs).st.calls.head? = some (Call.mkdirAll (outputDirOf c load)) := by
  unfold unpack
  simp only [hargs, hopen, hgz, Bool.true_eq_false, if_false]
  cases hmk : osMkdirAll fs (outputDirOf c load) with
  | none => rfl
  | some fs1 =>
    simp only
    obtain ⟨new, hnew⟩ := extractLoop_calls_ext (outputDirOf c load) c.nometa ar.entries
      (initState fs1 [Call.mkdirAll (outputDirOf c load)])
    have hhead : (extractLoop (outputDirOf c load) c.nometa
        (initState fs1 [Call.mkdirAll (outputDirOf c load)]) ar.entries).st.calls.head? =
        some (Call.mkdirAll (outputDirOf c load)) := by
      rw [hnew]
      rfl
    split
    · exact hhead
    · split_ifs
      · exact hhead
      · exact hhead

/-- C9 amended: the output directory of `unpack` is `outputDirOf`, the directory
its first filesystem call makes. With `--output` set it is exactly the given
value. Without it: for an input path whose last element has no extension it is
`.`; for an input path whose last element is a non-empty stem, a dot and an
extension without dots it is the stem. -/
theorem default_output_dir (c : Context) (load : Str) :
    (∀ (openFile : Str → Option Archive) (fs : FS) (rest : List Str) (ar : Archive),
      c.args = load :: rest → openFile load = some ar → ar.gzipOk = true →
      (unpack c openFile fs).st.calls.head? = some (Call.mkdirAll (outputDirOf c load))) ∧
    (∀ o, c.output = some o → outputDirOf c load = o) ∧
    (c.output = none → Ext load = [] → outputDirOf c load = ['.']) ∧
    (c.output = none → ∀ d stem ext : Str, load = d ++ stem ++ '.' :: ext →
      (d = [] ∨ d.getLast? = some '/') → stem ≠ [] → '/' ∉ stem → '/' ∉ ext → '.' ∉ ext →
      outputDirOf c load = stem) := by
  refine ⟨fun openFile fs rest ar h1 h2 h3 => unpack_first_call c openFile fs load rest ar h1 h2 h3,
    ?_, ?_, ?_⟩
  · intro o ho
    unfold outputDirOf
    simp only [ho]
  · intro hnone hext
    unfold outputDirOf
    simp only [hnone, hext, TrimSuffix_nil, ne_eq, not_true_eq_false, if_false]
    decide
  · intro hnone d stem ext hload hd hstem hs1 he1 he2
    have hE : Ext load = '.' :: ext := by
      rw [hload]
      exact Ext_found (d ++ stem) ext he1 he2
    have hT : TrimSuffix load (Ext load) = d ++ stem := by
      rw [hE, hload]
      exact TrimSuffix_append (d ++ stem) ('.' :: ext)
    have hB1 : Base (d ++ stem) = stem := Base_append d stem hd hs1 hstem
    have hB2 : Base load = stem ++ '.' :: ext := by
      rw [hload, List.append_assoc]
      apply Base_append d _ hd
      · intro hmem
        rcases List.mem_append.mp hmem with h | h
        · exact hs1 h
        · rcases List.mem_cons.mp h with h | h
          · exact absurd h (by decide)
          · exact he1 h
      · simp
    have hne : stem ≠ stem ++ '.' :: ext := by
      intro e
      have := congrArg List.length e
      simp at this
    unfold outputDirOf
    simp only [hnone, hT, hB1, hB2, ne_eq, hne, not_false_eq_true, if_true]

theorem default_output_dir_witness :
    outputDirOf ⟨["dir/pkg.unitypackage".toList], none, false⟩ "dir/pkg.unitypackage".toList =
        "pkg".toList ∧
      outputDirOf ⟨["dir/pkg".toList], none, false⟩ "dir/pkg".toList = ['.'] ∧
      outputDirOf ⟨["pkg.unitypackage".toList], some "dest".toList, false⟩
        "pkg.unitypackage".toList = "dest".toList ∧
      (unpack ⟨["pkg.unitypackage".toList], none, false⟩ (fun _ => some ⟨true, [], true⟩)
        fsOut).st.calls.head? =
        some (Call.mkdirAll (outputDirOf ⟨["pkg.unitypackage".toList], none, false⟩
          "pkg.unitypackage".toList)) :=
  ⟨(default_output_dir ⟨["dir/pkg.unitypackage".toList], none, false⟩
      "dir/pkg.unitypackage".toList).2.2.2 rfl "dir/".toList "pkg".toList "unitypackage".toList
      (by decide) (Or.inr (by decide)) (by decide) (by decide) (by decide) (by decide),
    (default_output_dir ⟨["dir/pkg".toList], none, false⟩ "dir/pkg".toList).2.2.1 rfl (by decide),
    (default_output_dir ⟨["pkg.unitypackage".toList], some "dest".toList, false⟩
      "pkg.unitypackage".toList).2.1 _ rfl,
    (default_output_dir ⟨["pkg.unitypackage".toList], none, false⟩
      "pkg.unitypackage".toList).1 (fun _ => some ⟨true, [], true⟩) fsOut [] ⟨true, [], true⟩
      rfl rfl rfl⟩

/-! ## Pending entries are kept -/

theorem markPending_keeps (outputDir : Str) (s : State) (e : Entry) :
    (∀ h, s.pendingRenames h ≠ none → (markPending outputDir s e).pendingRenames h ≠ none) ∧
    (∀ h, s.pendingMetaRenames h ≠ none →
      (markPending outputDir s e).pendingMetaRenames h ≠ none) := by
  unfold markPending
  split
  · exact ⟨fun _ hh => hh, fun _ hh => hh⟩
  · split_ifs
    · refine ⟨fun _ hh => hh, fun h hh => ?_⟩
      show upd s.pendingMetaRenames (Dir e.Name) _ h ≠ none
      by_cases hq : h = Dir e.Name
      · rw [hq, upd_same]; simp
      · rw [upd_other _ _ _ _ hq]; exact hh
    · refine ⟨fun h hh => ?_, fun _ hh => hh⟩
      show upd s.pendingRenames (Dir e.Name) _ h ≠ none
      by_cases hq : h = Dir e.Name
      · rw [hq, upd_same]; simp
      · rw [upd_other _ _ _ _ hq]; exact hh

theorem writeEntry_pending (outputDir : Str) (s : State) (e : Entry) (h0 : 0 ≤ e.Size) :
    (writeEntry outputDir s e).st.pendingRenames = (markPending outputDir s e).pendingRenames ∧
    (writeEntry outputDir s e).st.pendingMetaRenames =
      (markPending outputDir s e).pendingMetaRenames := by
  rcases hc : osCreate s.fs (Join outputDir (fileNameOf s e)) with _ | fs1
  · rw [writeEntry_create_fails outputDir s e hc]
    exact ⟨rfl, rfl⟩
  · rw [writeEntry_created outputDir s e fs1 h0 hc]
    exact ⟨rfl, rfl⟩

/-- C4, as stated, fails: after the asset entry and then the pathname entry of
`id2` are processed without error, `id2` is still a key of the pending
content-rename map, and it is a key of the known-name map as well. -/
theorem pending_kept_after_resolution :
    (extractLoop outDir false (initState fsOut []) [eAsset2, ePath2]).err = none ∧
      (extractLoop outDir false (initState fsOut []) [eAsset2, ePath2]).st.pendingRenames
        "id2".toList = some "out/id2".toList ∧
      (extractLoop outDir false (initState fsOut []) [eAsset2, ePath2]).st.nameLookup
        "id2".toList = some "Scripts/Move.cs".toList := by
  decide

/-- C4 amended: no round of the loop removes a pending entry: an identifier that
is a key of the pending content-rename map, or of the pending meta-rename map,
before a round is still a key of it afterwards. A pathname entry, processed
with or without error, leaves both pending maps exactly as they were, and when
it is processed without error its identifier is a key of the known-name map
afterwards. So an identifier that had a pending path keeps it next to its known
name. -/
theorem pending_never_removed (outputDir : Str) (nometa : Bool) (s : State) (e : Entry) :
    (∀ h, s.pendingRenames h ≠ none → (step outputDir nometa s e).st.pendingRenames h ≠ none) ∧
    (∀ h, s.pendingMetaRenames h ≠ none →
      (step outputDir nometa s e).st.pendingMetaRenames h ≠ none) ∧
    (Base e.Name = sPathname → Base e.Name ≠ Dir e.Name → 1 ≤ e.Size →
      (step outputDir nometa s e).st.pendingRenames = s.pendingRenames ∧
      (step outputDir nometa s e).st.pendingMetaRenames = s.pendingMetaRenames ∧
      ((step outputDir nometa s e).err = none →
        (step outputDir nometa s e).st.nameLookup (Dir e.Name) =
          some (TrimSpace (e.payload.take e.Size.toNat)))) := by
  have hkeep : (∀ h, s.pendingRenames h ≠ none →
        (step outputDir nometa s e).st.pendingRenames h ≠ none) ∧
      (∀ h, s.pendingMetaRenames h ≠ none →
        (step outputDir nometa s e).st.pendingMetaRenames h ≠ none) := by
    rcases step_kinds outputDir nometa s e with h | ⟨hn, -, h⟩ | ⟨-, -, h⟩
    · rw [h]
      exact ⟨fun _ hh => hh, fun _ hh => hh⟩
    · rw [h]
      obtain ⟨k1, k2⟩ := writeEntry_pending outputDir s e (by omega)
      rw [k1, k2]
      exact markPending_keeps outputDir s e
    · rw [h]
      obtain ⟨h1, h2, -, -⟩ := resolveName_maps outputDir s e
      rw [h1, h2]
      exact ⟨fun _ hh => hh, fun _ hh => hh⟩
  refine ⟨hkeep.1, hkeep.2, ?_⟩
  intro hk hid hn
  rw [step_pathname outputDir nometa s e hid hn hk]
  obtain ⟨h1, h2, h3, h4⟩ := resolveName_maps outputDir s e
  refine ⟨h1, h2, fun hok => ?_⟩
  rw [h3 (h4 hok)]
  exact upd_same _ _ _

theorem pending_never_removed_witness :
    (step outDir false (step outDir false (initState fsOut []) eAsset2).st ePath2).st.pendingRenames
      = (step outDir false (initState fsOut []) eAsset2).st.pendingRenames :=
  ((pending_never_removed outDir false (step outDir false (initState fsOut []) eAsset2).st
    ePath2).2.2 (by decide) (by decide) (by decide)).1

end Ununity
